import Mathlib

/-!
Verification development for the `nested_json_converter` repository.

The repository converts a flat JSON list of records into a nested tree
grouped by an ordered list of nesting-level attribute names
(`RecordsToTreeConverter` in `converter/records_to_tree_converter.py`),
and then serializes the tree back to JSON with sorted keys and 2-space
indentation.

The embedding below is a shallow functional translation of that module:

* Python dictionaries appear as insertion-ordered association lists with
  unique keys; Python `dict` update/lookup/assignment are modelled by the
  `dictSet`/`dictGet`/`dictUpdate` operations which keep first-occurrence
  positions, exactly as CPython dictionaries do.
* record attribute values are scalars (strings and integers), matching the
  data model of the module (records are flat attribute maps).
* the stateful `anytree` node graph is modelled by the purely functional
  rose tree `Tree`; mutation of the shared tree is made explicit by
  returning the updated tree from every operation, and a raised Python
  exception is modelled by an `Except` error paired with the tree as
  mutated up to the point of the raise (Python exceptions do not roll
  back prior mutations).
* exception *messages* are not modelled, with one exception: the count of
  offending records interpolated into the `DataAttributeMissingError`
  message is kept as a payload of the corresponding error constructor.
  The diagnostic lines written to `stderr` during validation are side
  effects outside the returned value and are not modelled.
* `json.loads` decoding of the raw input text is modelled by taking the
  already-decoded value (`PyVal`); decode failures (`json.JSONDecodeError`)
  propagate from the decoder before the converter runs and are outside
  this embedding.
-/

namespace NestedJson

/-- A scalar attribute value of a record: a Python string or integer. -/
inductive Val where
  | s (v : String)
  | i (v : Int)
deriving DecidableEq

/-- A record: a Python dictionary from attribute names to scalar values,
modelled as an insertion-ordered association list. -/
abbrev Record := List (String × Val)

/-- A decoded JSON-like Python value, as seen by `_validate_input_data`. -/
inductive PyVal where
  | list (xs : List PyVal)
  | dict (r : Record)
  | scalar (v : Val)

/-- The error taxonomy of `records_to_tree_exceptions.py`, together with the
Python built-in exceptions (`KeyError`, `AttributeError`, `TypeError`) that
the module can let escape.  Messages are elided except for the record count
reported by `DataAttributeMissingError`. -/
inductive ConvError where
  | invalidDataStructure
  | dataAttributeMissing (missingCount : Nat)
  | duplicateNodesFound
  | missingNode
  | missingRecord
  | missingNestingLevels
  | noTreeCreated
  | keyError
  | attributeError
  | typeError
deriving DecidableEq

/-- An `anytree` node: a label (`Node.name`), the list of leaf payload
records (`node.values`, absent on internal nodes and modelled as `[]`
until assigned), and the ordered children list. -/
inductive Tree where
  | node (name : Val) (values : List Record) (children : List Tree)

/-- The node label (`node.name` in `anytree`). -/
def Tree.name : Tree → Val
  | .node n _ _ => n

/-- The leaf payload (`node.values`), `[]` when never assigned. -/
def Tree.values : Tree → List Record
  | .node _ vs _ => vs

/-- The ordered children list (`node.children`). -/
def Tree.children : Tree → List Tree
  | .node _ _ cs => cs

theorem Tree.name_node (n : Val) (vl : List Record) (cs : List Tree) :
    (Tree.node n vl cs).name = n := rfl

theorem Tree.values_node (n : Val) (vl : List Record) (cs : List Tree) :
    (Tree.node n vl cs).values = vl := rfl

theorem Tree.children_node (n : Val) (vl : List Record) (cs : List Tree) :
    (Tree.node n vl cs).children = cs := rfl

/-- Python truthiness of a decoded value (`bool(x)`). -/
def PyVal.truthy : PyVal → Bool
  | .list xs => !xs.isEmpty
  | .dict r => !r.isEmpty
  | .scalar (.s v) => !v.isEmpty
  | .scalar (.i v) => decide (v ≠ 0)

/-- `isinstance(x, list)`. -/
def PyVal.isList : PyVal → Bool
  | .list _ => true
  | _ => false

/-- `isinstance(x, dict)`. -/
def PyVal.isDict : PyVal → Bool
  | .dict _ => true
  | _ => false

/-- `record[k]` as an optional lookup: first (unique) matching key. -/
def lookupR (r : Record) (k : String) : Option Val :=
  (r.find? (fun kv => decide (kv.1 = k))).map Prod.snd

/-- `record.keys()`: the key view of a dictionary in insertion order (the
keys of a Python dictionary are unique, so this is the first components). -/
def Record.keys (r : Record) : List String :=
  r.map Prod.fst

/-- Whether `set(nesting_levels) - record.keys()` is non-empty for one
element of the input list, i.e. the record misses a declared nesting
attribute.  Non-dictionary elements cannot reach this test (the structure
gate raised before). -/
def missesAttr (nesting_levels : List String) : PyVal → Bool
  | .dict r => nesting_levels.any (fun l => !(Record.keys r).contains l)
  | _ => false

/-- `RecordsToTreeConverter._validate_input_data`: the structure gate
(`InvalidDataStructureError` unless the input is a non-empty list of
dictionaries) followed by the attribute-completeness count
(`DataAttributeMissingError` carrying the number of offending records);
returns `True` on success. -/
def validate_input_data (nesting_levels : List String) (input_data : PyVal) :
    Except ConvError Bool :=
  let is_input_data_valid := true
  let is_input_data_a_list := input_data.isList
  let input_data_contains_only_dicts :=
    match input_data with
    | .list xs => xs.all PyVal.isDict
    | _ => true
  if !(input_data.truthy && is_input_data_a_list && input_data_contains_only_dicts) then
    .error .invalidDataStructure
  else
    let missing_count :=
      match input_data with
      | .list xs => (xs.filter (missesAttr nesting_levels)).length
      | _ => 0
    if missing_count ≠ 0 then
      .error (.dataAttributeMissing missing_count)
    else
      .ok is_input_data_valid

/-- Replace the first child whose label equals `v` by `c'`, keeping every
other child in place.  This realizes the in-place mutation of the unique
matching child during the recursive descent of `_build_branch`. -/
def replaceFirst (cs : List Tree) (v : Val) (c' : Tree) : List Tree :=
  match cs with
  | [] => []
  | c :: rest => if c.name = v then c' :: rest else c :: replaceFirst rest v c'

/-- `RecordsToTreeConverter._build_branch`, for the case where the levels
argument is an actual list (the `None` case lives in `build_branch`).
`is_root_node` models the identity test `current_node == self.root_node`:
it is `true` exactly for the converter's root node, and the recursive call
descends into a child, which is never the root object.  The function
returns the tree as mutated so far together with either the raised error
or the label path from `current_node` down to the returned leaf node
(the functional stand-in for the returned `Node` reference). -/
def build_branch_go (remaining_nesting_levels : List String) (is_root_node : Bool)
    (current_node : Tree) (record : Record) : Tree × Except ConvError (List Val) :=
  if record.isEmpty then (current_node, .error .missingRecord)
  else
    match remaining_nesting_levels with
    | [] =>
      if is_root_node then (current_node, .error .missingNestingLevels)
      else (current_node, .ok [])
    | level :: rest =>
      match lookupR record level with
      | none => (current_node, .error .keyError)
      | some next_level =>
        let existing_nodes := current_node.children.filter (fun c => decide (c.name = next_level))
        if existing_nodes.length > 1 then (current_node, .error .duplicateNodesFound)
        else if !existing_nodes.isEmpty && rest.isEmpty then
          (current_node, .error .duplicateNodesFound)
        else
          match existing_nodes with
          | [] =>
            let created := Tree.node next_level [] []
            let result := build_branch_go rest false created record
            (Tree.node current_node.name current_node.values
              (current_node.children ++ [result.1]),
             result.2.map (fun p => next_level :: p))
          | c :: _ =>
            let result := build_branch_go rest false c record
            (Tree.node current_node.name current_node.values
              (replaceFirst current_node.children next_level result.1),
             result.2.map (fun p => next_level :: p))

/-- `RecordsToTreeConverter._build_branch` including the `None` checks on
the current node, the record, and the levels argument, in source order. -/
def build_branch (remaining_nesting_levels : Option (List String)) (is_root_node : Bool)
    (current_node : Option Tree) (record : Option Record) :
    Option Tree × Except ConvError (List Val) :=
  match current_node with
  | none => (none, .error .missingNode)
  | some t =>
    match record with
    | none => (some t, .error .missingRecord)
    | some r =>
      if r.isEmpty then (some t, .error .missingRecord)
      else
        match remaining_nesting_levels with
        | none => (some t, .error .missingNestingLevels)
        | some ls =>
          let result := build_branch_go ls is_root_node t r
          (some result.1, result.2)

/-- `record.keys() ^ set(self.nesting_levels)`: the symmetric difference,
as a key list.  Python iterates the resulting set in an unspecified order;
the embedding fixes the canonical order "record keys first, then levels",
which is observationally equivalent because dictionary equality and the
sorted-keys serialization ignore entry order. -/
def remaining_keys (record : Record) (nesting_levels : List String) : List String :=
  (Record.keys record).filter (fun k => !nesting_levels.contains k) ++
    nesting_levels.eraseDups.filter (fun l => !(Record.keys record).contains l)

/-- `{k: record[k] for k in remaining_keys}`: raises `KeyError` at the
first key absent from the record. -/
def dict_comprehension (ks : List String) (record : Record) : Except ConvError Record :=
  match ks with
  | [] => .ok []
  | k :: rest =>
    match lookupR record k with
    | none => .error .keyError
    | some v => (dict_comprehension rest record).map (fun d => (k, v) :: d)

/-- `leaf_node.values = vs`: assign the payload of the node reached from
`t` by descending, at each step, into the first child carrying the next
label of `path` (the node `_build_branch` returned a reference to).
If the path does not exist the tree is returned unchanged; `create_tree`
only calls this with the path of a node that was just built. -/
def setValuesAt (t : Tree) (path : List Val) (vs : List Record) : Tree :=
  match path with
  | [] => Tree.node t.name vs t.children
  | v :: rest =>
    match t.children.find? (fun c => decide (c.name = v)) with
    | none => t
    | some c => Tree.node t.name t.values (replaceFirst t.children v (setValuesAt c rest vs))

/-- The per-record loop of `create_tree`: build the branch, compute the
residual attribute map, assign it as the one-element leaf payload.
Elements that are not dictionaries are unreachable here because the loop
runs only after validation succeeded. -/
def create_tree_loop (nesting_levels : List String) (t : Tree) (records : List PyVal) :
    Tree × Except ConvError Unit :=
  match records with
  | [] => (t, .ok ())
  | x :: rest =>
    match x with
    | .dict record =>
      let built := build_branch_go nesting_levels true t record
      match built.2 with
      | .error e => (built.1, .error e)
      | .ok leaf_path =>
        match dict_comprehension (remaining_keys record nesting_levels) record with
        | .error e => (built.1, .error e)
        | .ok payload =>
          create_tree_loop nesting_levels (setValuesAt built.1 leaf_path [payload]) rest
    | _ => (t, .error .typeError)

/-- The initial tree of a fresh converter: `Node('root')` with no children. -/
def root_node : Tree := Tree.node (.s "root") [] []

/-- `RecordsToTreeConverter.create_tree` on the decoded input value:
validate, then fold every record into the tree.  The tree is returned
alongside the outcome because a raised error leaves the converter's tree
mutated with the branches already built (the documented recreate-on-error
policy of the module). -/
def create_tree (nesting_levels : List String) (root : Tree) (loaded_data : PyVal) :
    Tree × Except ConvError Unit :=
  match validate_input_data nesting_levels loaded_data with
  | .error e => (root, .error e)
  | .ok valid =>
    if valid then
      match loaded_data with
      | .list records => create_tree_loop nesting_levels root records
      | _ => (root, .ok ())
    else (root, .ok ())

/-! ## The export phase

`export_tree` builds a nested Python structure (`output_dict`) by walking
the tree (`_export_layer`) and serializes it with
`json.dumps(output_dict, sort_keys=True, indent=2)`.  The values that can
occur in that structure are dictionaries (keyed by node labels, which may
be strings or integers), lists of records (leaf payloads), and scalars
(payload attribute values). -/

/-- A value of the nested output structure handed to `json.dumps`. -/
inductive DVal where
  | dict (entries : List (Val × DVal))
  | arr (elems : List DVal)
  | scalar (v : Val)

/-- `d[k]` on a Python dictionary. -/
def dictGet (entries : List (Val × DVal)) (k : Val) : Option DVal :=
  (entries.find? (fun kv => decide (kv.1 = k))).map Prod.snd

/-- `d[k] = v` on a Python dictionary: replace in place, else append. -/
def dictSet (entries : List (Val × DVal)) (k : Val) (v : DVal) : List (Val × DVal) :=
  match entries with
  | [] => [(k, v)]
  | kv :: rest => if kv.1 = k then (k, v) :: rest else kv :: dictSet rest k v

/-- `d.update(updates)` on a Python dictionary. -/
def dictUpdate (entries : List (Val × DVal)) (updates : List (Val × DVal)) :
    List (Val × DVal) :=
  match updates with
  | [] => entries
  | (k, v) :: rest => dictUpdate (dictSet entries k v) rest

/-- A leaf payload record viewed as a serializable dictionary. -/
def recordToDVal (r : Record) : DVal :=
  .dict (r.map (fun kv => (Val.s kv.1, DVal.scalar kv.2)))

mutual

/-- `RecordsToTreeConverter._export_layer`: for a leaf, return its stored
payload list; otherwise initialize a placeholder `\x7b\x7d` entry per child
label, then recurse into every child, reflecting in-place mutation of the
shared sub-dictionary, and overwrite the entry with the child's payload
list when that list is truthy (non-empty).  Calling it with a non-dictionary
`current_dict` (possible only when sibling labels collide) hits
`AttributeError` on `.update`, as in Python. -/
def export_layer (current_node : Tree) (current_dict : DVal) :
    Except ConvError (Option (List Record) × DVal) :=
  match current_node with
  | .node _ values [] => .ok (some values, current_dict)
  | .node _ _ children =>
    match current_dict with
    | .dict entries =>
      let entries := dictUpdate entries (children.map (fun c => (c.name, DVal.dict [])))
      (export_children children entries).map (fun es => (none, DVal.dict es))
    | _ => .error .attributeError

/-- The `for child_node in current_node.children` loop of `_export_layer`,
threading the mutated dictionary. -/
def export_children (children : List Tree) (entries : List (Val × DVal)) :
    Except ConvError (List (Val × DVal)) :=
  match children with
  | [] => .ok entries
  | c :: rest =>
    match dictGet entries c.name with
    | none => .error .keyError
    | some sub =>
      match export_layer c sub with
      | .error e => .error e
      | .ok (values, sub') =>
        let entries := dictSet entries c.name sub'
        let entries :=
          match values with
          | some vs => if vs.isEmpty then entries else dictSet entries c.name (DVal.arr (vs.map recordToDVal))
          | none => entries
        export_children rest entries

end

/-! ### The serializer: `json.dumps(..., sort_keys=True, indent=2)` -/

/-- Strict lexicographic comparison of character lists by code point,
which is how Python compares strings. -/
def charsLtB : List Char → List Char → Bool
  | [], [] => false
  | [], _ :: _ => true
  | _ :: _, [] => false
  | a :: as, b :: bs =>
    if a.toNat < b.toNat then true
    else if b.toNat < a.toNat then false
    else charsLtB as bs

/-- Python `a < b` on strings. -/
def strLtB (a b : String) : Bool := charsLtB a.data b.data

/-- Python `a <= b` on strings (total for a strict linear order). -/
def strLeB (a b : String) : Bool := !strLtB b a

/-- Python `a <= b` on integers. -/
def intLeB (a b : Int) : Bool := decide (a ≤ b)

/-- Insert into a sorted list, before the first element not below `x`
(stable, like Python's sort). -/
def insertLe (le : α → α → Bool) (x : α) : List α → List α
  | [] => [x]
  | y :: ys => if le x y then x :: y :: ys else y :: insertLe le x ys

/-- Stable insertion sort; extensionally the order `sorted` produces. -/
def sortLe (le : α → α → Bool) : List α → List α
  | [] => []
  | x :: xs => insertLe le x (sortLe le xs)

/-- Is the key a string? -/
def Val.isStr : Val → Bool
  | .s _ => true
  | .i _ => false

/-- The string under a string key (unused on integer keys). -/
def Val.keyS : Val → String
  | .s v => v
  | .i _ => ""

/-- The integer under an integer key (unused on string keys). -/
def Val.keyI : Val → Int
  | .i v => v
  | .s _ => 0

/-- The comparison `sorted` uses on items of a string-keyed dictionary. -/
def entryLeS (a b : Val × DVal) : Bool := strLeB a.1.keyS b.1.keyS

/-- The comparison `sorted` uses on items of an integer-keyed dictionary. -/
def entryLeI (a b : Val × DVal) : Bool := intLeB a.1.keyI b.1.keyI

/-- `sorted(dct.items())` as performed by the encoder when `sort_keys`
is set: dictionary keys are unique, so items compare by key alone;
homogeneous string keys sort lexicographically, homogeneous integer keys
numerically, and a mixed key set raises `TypeError` (Python cannot order
`str` against `int`). -/
def sortEntries (entries : List (Val × DVal)) : Except ConvError (List (Val × DVal)) :=
  if entries.all (fun kv => kv.1.isStr) then
    .ok (sortLe entryLeS entries)
  else if entries.all (fun kv => !kv.1.isStr) then
    .ok (sortLe entryLeI entries)
  else .error .typeError

mutual

/-- The key-ordering phase of `json.dumps(..., sort_keys=True)`: sort
every dictionary of the structure by its keys.  The encoder sorts each
dictionary just before rendering it; separating the sort from the
rendering is observationally equal because sorting neither looks at nor
changes the values, and the only error either phase can produce is the
`TypeError` for an unorderable key set. -/
def sortKeysD : DVal → Except ConvError DVal
  | .scalar v => .ok (.scalar v)
  | .arr xs => (sortKeysList xs).map DVal.arr
  | .dict entries =>
    match sortKeysPairs entries with
    | .error e => .error e
    | .ok es => (sortEntries es).map DVal.dict

/-- `sortKeysD` over the elements of a list value. -/
def sortKeysList : List DVal → Except ConvError (List DVal)
  | [] => .ok []
  | x :: xs =>
    match sortKeysD x with
    | .error e => .error e
    | .ok x' => (sortKeysList xs).map (x' :: ·)

/-- `sortKeysD` over the values of a dictionary. -/
def sortKeysPairs : List (Val × DVal) → Except ConvError (List (Val × DVal))
  | [] => .ok []
  | (k, v) :: rest =>
    match sortKeysD v with
    | .error e => .error e
    | .ok v' => (sortKeysPairs rest).map ((k, v') :: ·)

end

/-- A lowercase hexadecimal digit. -/
def hexDigitChar (n : Nat) : Char :=
  if n < 10 then Char.ofNat (48 + n) else Char.ofNat (87 + n)

/-- A `\uXXXX` escape for a code unit. -/
def uEscape (n : Nat) : String :=
  "\\u" ++ String.mk [hexDigitChar (n / 4096 % 16), hexDigitChar (n / 256 % 16),
    hexDigitChar (n / 16 % 16), hexDigitChar (n % 16)]

/-- One character under the default `ensure_ascii` JSON string escaping:
quote and backslash escaped, the five named control escapes, `\uXXXX` for
the remaining control characters and for everything outside printable
ASCII, with surrogate pairs above the basic plane. -/
def escapeChar (c : Char) : String :=
  let n := c.toNat
  if n = 34 then "\\\""
  else if n = 92 then "\\\\"
  else if n = 8 then "\\b"
  else if n = 9 then "\\t"
  else if n = 10 then "\\n"
  else if n = 12 then "\\f"
  else if n = 13 then "\\r"
  else if n < 32 then uEscape n
  else if n ≤ 126 then String.singleton c
  else if n ≤ 65535 then uEscape n
  else uEscape (55296 + (n - 65536) / 1024) ++ uEscape (56320 + (n - 65536) % 1024)

/-- A JSON string literal. -/
def renderStr (s : String) : String :=
  "\"" ++ String.join (s.data.map escapeChar) ++ "\""

/-- A scalar value: strings quoted and escaped, integers in decimal. -/
def renderScalar : Val → String
  | .s v => renderStr v
  | .i v => toString v

/-- A dictionary key: integers are coerced to their decimal string by the
encoder, so every key renders as a JSON string. -/
def renderKey : Val → String
  | .s v => renderStr v
  | .i v => "\"" ++ toString v ++ "\""

/-- `indent * level` for the fixed 2-space indent. -/
def indentStr (level : Nat) : String :=
  String.mk (List.replicate (2 * level) ' ')

mutual

/-- The rendering phase of `json.dumps(..., indent=2)` on an
already-key-sorted structure: empty containers render inline, non-empty
containers put every item on its own line, one indent level deeper. -/
def renderD (level : Nat) : DVal → String
  | .scalar v => renderScalar v
  | .dict [] => "\x7b\x7d"
  | .dict (e :: es) =>
    "\x7b\n" ++ renderEntries (level + 1) (e :: es) ++ "\n" ++ indentStr level ++ "\x7d"
  | .arr [] => "[]"
  | .arr (x :: xs) =>
    "[\n" ++ renderElems (level + 1) (x :: xs) ++ "\n" ++ indentStr level ++ "]"

/-- The comma-and-newline separated entries of a non-empty dictionary. -/
def renderEntries (level : Nat) : List (Val × DVal) → String
  | [] => ""
  | [e] => indentStr level ++ renderKey e.1 ++ ": " ++ renderD level e.2
  | e :: e' :: es =>
    indentStr level ++ renderKey e.1 ++ ": " ++ renderD level e.2 ++ ",\n" ++
      renderEntries level (e' :: es)

/-- The comma-and-newline separated elements of a non-empty list. -/
def renderElems (level : Nat) : List DVal → String
  | [] => ""
  | [x] => indentStr level ++ renderD level x
  | x :: x' :: xs =>
    indentStr level ++ renderD level x ++ ",\n" ++ renderElems level (x' :: xs)

end

/-- `json.dumps(v, sort_keys=True, indent=2)`. -/
def json_dumps (v : DVal) : Except ConvError String :=
  (sortKeysD v).map (renderD 0)

/-- `RecordsToTreeConverter.export_tree` up to the rendering step: the
`NoTreeCreatedError` guard, the `_export_layer` walk over a fresh empty
dictionary, and the key-sorting phase of the serialization. -/
def export_prepared (t : Tree) : Except ConvError DVal :=
  if t.children.isEmpty then .error .noTreeCreated
  else
    match export_layer t (DVal.dict []) with
    | .error e => .error e
    | .ok (_, d) => sortKeysD d

/-- `RecordsToTreeConverter.export_tree`: the returned JSON text. -/
def export_tree (t : Tree) : Except ConvError String :=
  (export_prepared t).map (renderD 0)

/-! ## Specification-side definitions

These definitions formalize the vocabulary of the specification claims;
they are what the theorems below relate to the translated code. -/

/-- A full nesting path exists in the tree: at each step the descent into
the first child carrying the next label succeeds. -/
def pathExistsB (t : Tree) : List Val → Bool
  | [] => true
  | v :: vs =>
    match t.children.find? (fun c => decide (c.name = v)) with
    | none => false
    | some c => pathExistsB c vs

/-- The node reached from `t` along a label path (first matching child at
each step). -/
def getAtPath (t : Tree) : List Val → Option Tree
  | [] => some t
  | v :: vs =>
    match t.children.find? (fun c => decide (c.name = v)) with
    | none => none
    | some c => getAtPath c vs

/-- The record's values on the declared nesting attributes, in level
order; `none` when some attribute is absent. -/
def valsOf (record : Record) : List String → Option (List Val)
  | [] => some []
  | l :: ls =>
    match lookupR record l with
    | none => none
    | some v => (valsOf record ls).map (v :: ·)

/-- The claim-side residual map: the record restricted to exactly those
keys not among the nesting-level names (in record order). -/
def spec_restrict (record : Record) (nesting_levels : List String) : Record :=
  record.filter (fun kv => !nesting_levels.contains kv.1)

/-- The fresh single-branch chain created for one record: one node per
remaining level value, each the sole child of the previous one. -/
def chainT (v : Val) : List Val → Tree
  | [] => Tree.node v [] []
  | w :: ws => Tree.node v [] [chainT w ws]

/-- No two elements of the list are equal (label uniqueness test). -/
def namesNodupB : List Val → Bool
  | [] => true
  | v :: vs => !vs.contains v && namesNodupB vs

mutual

/-- Invariant I1 of the specification: at every node of the tree, no two
children share a label. -/
def sibUniqueB : Tree → Bool
  | .node _ _ cs => namesNodupB (cs.map Tree.name) && sibUniqueAll cs

/-- `sibUniqueB` for every tree in a list. -/
def sibUniqueAll : List Tree → Bool
  | [] => true
  | c :: cs => sibUniqueB c && sibUniqueAll cs

end

mutual

/-- Every node label in the tree is a string. -/
def labelsStrB : Tree → Bool
  | .node n _ cs => n.isStr && labelsStrAll cs

/-- `labelsStrB` for every tree in a list. -/
def labelsStrAll : List Tree → Bool
  | [] => true
  | c :: cs => labelsStrB c && labelsStrAll cs

end

/-- Adjacent-pairs ascending test for key strings (non-strict, which on
the unique keys of a dictionary coincides with strictly ascending). -/
def strChainLeB : List String → Bool
  | [] => true
  | [_] => true
  | a :: b :: rest => strLeB a b && strChainLeB (b :: rest)

/-- The string a key is rendered as in the output. -/
def keyRenderStr : Val → String
  | .s v => v
  | .i v => toString v

mutual

/-- Every dictionary key in the structure is a string key. -/
def dvalStrKeysB : DVal → Bool
  | .scalar _ => true
  | .arr xs => dvalStrKeysList xs
  | .dict entries => (entries.map Prod.fst).all Val.isStr && dvalStrKeysPairs entries

/-- `dvalStrKeysB` over list elements. -/
def dvalStrKeysList : List DVal → Bool
  | [] => true
  | x :: xs => dvalStrKeysB x && dvalStrKeysList xs

/-- `dvalStrKeysB` over dictionary values. -/
def dvalStrKeysPairs : List (Val × DVal) → Bool
  | [] => true
  | (_, v) :: rest => dvalStrKeysB v && dvalStrKeysPairs rest

end

mutual

/-- The keys of every dictionary of the structure, read in entry order as
the strings they are rendered as, are in ascending lexicographic order. -/
def keysAscendingB : DVal → Bool
  | .scalar _ => true
  | .arr xs => keysAscendingList xs
  | .dict entries =>
    strChainLeB (entries.map (fun kv => keyRenderStr kv.1)) && keysAscendingPairs entries

/-- `keysAscendingB` over list elements. -/
def keysAscendingList : List DVal → Bool
  | [] => true
  | x :: xs => keysAscendingB x && keysAscendingList xs

/-- `keysAscendingB` over dictionary values. -/
def keysAscendingPairs : List (Val × DVal) → Bool
  | [] => true
  | (_, v) :: rest => keysAscendingB v && keysAscendingPairs rest

end

/-! ## Basic lemmas -/

theorem Tree.eta (t : Tree) : Tree.node t.name t.values t.children = t := by
  cases t; rfl

theorem lookupR_ne_nil {r : Record} {k : String} {v : Val} (h : lookupR r k = some v) :
    r ≠ [] := by
  intro hr; subst hr; simp [lookupR] at h

theorem isEmpty_false_of_lookupR {r : Record} {k : String} {v : Val}
    (h : lookupR r k = some v) : r.isEmpty = false := by
  cases r with
  | nil => simp [lookupR] at h
  | cons kv rest => rfl

/-- The levels-`None` case of `_build_branch` can only surface at the top
call: every recursive call passes an actual list and a non-root node, so a
raised `MissingNestingLevelsError` never comes from deeper in the
recursion when the levels list is non-empty. -/
theorem build_branch_go_ne_mnl (r : Record) :
    ∀ (ls : List String) (ir : Bool) (t : Tree), r ≠ [] → (ls ≠ [] ∨ ir = false) →
      (build_branch_go ls ir t r).2 ≠ .error .missingNestingLevels := by
  intro ls
  induction ls with
  | nil =>
    intro ir t hr hl
    have hre : r.isEmpty = false := by simpa [List.isEmpty_iff] using hr
    rcases hl with h | h
    · exact absurd rfl h
    · subst h
      simp [build_branch_go, hre]
  | cons level rest ih =>
    intro ir t hr _
    have hre : r.isEmpty = false := by simpa [List.isEmpty_iff] using hr
    simp only [build_branch_go, hre, Bool.false_eq_true, if_false]
    cases hq : lookupR r level with
    | none => simp
    | some v =>
      dsimp only
      by_cases h1 : (List.filter (fun c => decide (c.name = v)) t.children).length > 1
      · rw [if_pos h1]; simp
      · rw [if_neg h1]
        by_cases h2 :
            (!(List.filter (fun c => decide (c.name = v)) t.children).isEmpty
              && rest.isEmpty) = true
        · rw [if_pos h2]; simp
        · rw [if_neg h2]
          cases hf : List.filter (fun c => decide (c.name = v)) t.children with
          | nil =>
            dsimp only
            intro hc
            apply ih false (Tree.node v [] []) hr (Or.inr rfl)
            cases h3 : (build_branch_go rest false (Tree.node v [] []) r).2 with
            | error e =>
              rw [h3] at hc
              simp only [Except.map] at hc
              exact hc
            | ok p => rw [h3] at hc; simp [Except.map] at hc
          | cons c cs =>
            dsimp only
            intro hc
            apply ih false c hr (Or.inr rfl)
            cases h3 : (build_branch_go rest false c r).2 with
            | error e =>
              rw [h3] at hc
              simp only [Except.map] at hc
              exact hc
            | ok p => rw [h3] at hc; simp [Except.map] at hc

/-! ## C1: the end-to-end example scenario -/

def claim1_levels : List String := ["currency", "country", "city"]

def claim1_input : PyVal :=
  .list [
    .dict [("currency", .s "EUR"), ("country", .s "FR"), ("city", .s "Paris"), ("amount", .i 10)],
    .dict [("currency", .s "EUR"), ("country", .s "FR"), ("city", .s "Lyon"), ("amount", .i 5)],
    .dict [("currency", .s "EUR"), ("country", .s "ES"), ("city", .s "Madrid"), ("amount", .i 7)]]

def claim1_expected : DVal :=
  .dict [(.s "EUR", .dict [
    (.s "ES", .dict [(.s "Madrid", .arr [.dict [(.s "amount", .scalar (.i 7))]])]),
    (.s "FR", .dict [
      (.s "Lyon", .arr [.dict [(.s "amount", .scalar (.i 5))]]),
      (.s "Paris", .arr [.dict [(.s "amount", .scalar (.i 10))]])])])]

/-- C1: with nesting levels `["currency","country","city"]`, `create_tree`
on the three-record example array succeeds, and `export_tree` returns
exactly the sorted-keys, 2-space-indent serialization of the nested
mapping `EUR -> ES -> Madrid -> [amount 7]; FR -> Lyon -> [amount 5],
Paris -> [amount 10]` (and that serialization is produced, not an error). -/
theorem claim_C1 :
    (create_tree claim1_levels root_node claim1_input).2 = .ok () ∧
    export_tree (create_tree claim1_levels root_node claim1_input).1 = json_dumps claim1_expected ∧
    (json_dumps claim1_expected).toOption.isSome = true :=
  ⟨rfl, rfl, rfl⟩

/-! ## C3: when `MissingNestingLevelsError` is raised -/

/-- C3 is refuted: calling `_build_branch` with an absent (`None`) levels
sequence, a non-root current node and a non-empty record does raise
`MissingNestingLevelsError`, because the raise condition is
`remaining_nesting_levels is None or (empty and current is root)` — the
`None` disjunct does not require the root.  The claim asserts this call
does not raise. -/
theorem claim_C3_counterexample :
    build_branch none false (some (Tree.node (Val.s "EUR") [] []))
        (some [("a", Val.s "x")]) =
      (some (Tree.node (Val.s "EUR") [] []), .error .missingNestingLevels) := rfl

/-- C3 amended: with the current node present and the record non-empty,
`_build_branch` raises `MissingNestingLevelsError` exactly when the
remaining-levels sequence is absent (`None`) — for any current node — or
is empty while the current node is the root. -/
theorem claim_C3 (levels : Option (List String)) (ir : Bool) (t : Tree) (r : Record)
    (hr : r ≠ []) :
    (build_branch levels ir (some t) (some r)).2 = .error .missingNestingLevels ↔
      (levels = none ∨ (levels = some [] ∧ ir = true)) := by
  constructor
  · intro h
    cases levels with
    | none => exact Or.inl rfl
    | some ls =>
      cases ls with
      | nil =>
        refine Or.inr ⟨rfl, ?_⟩
        by_contra hir
        have hir' : ir = false := by revert hir; cases ir <;> simp
        subst hir'
        simp [build_branch, build_branch_go, List.isEmpty_iff, hr] at h
      | cons level rest =>
        exfalso
        have := build_branch_go_ne_mnl r (level :: rest) ir t hr (Or.inl (by simp))
        simp only [build_branch, List.isEmpty_iff, hr, if_false] at h
        exact this h
  · intro h
    rcases h with h | ⟨h1, h2⟩
    · subst h
      simp [build_branch, List.isEmpty_iff, hr]
    · subst h1; subst h2
      simp [build_branch, build_branch_go, List.isEmpty_iff, hr]

/-- Witness for C3 (amended): the empty levels list at the root raises
`MissingNestingLevelsError`. -/
theorem claim_C3_witness :
    (build_branch (some []) true (some root_node) (some [("a", Val.s "x")])).2 =
      .error .missingNestingLevels :=
  (claim_C3 (some []) true root_node [("a", Val.s "x")] (by decide)).mpr
    (Or.inr ⟨rfl, rfl⟩)

/-! ## C4 and C5: the validation gate -/

/-- Claim-side description of an offending record: an element that is a
record missing at least one declared nesting attribute. -/
def offendsB (nesting_levels : List String) (x : PyVal) : Bool :=
  match x with
  | .dict r => decide (∃ l ∈ nesting_levels, l ∉ Record.keys r)
  | _ => false

theorem missesAttr_eq_offendsB (levels : List String) (x : PyVal) :
    missesAttr levels x = offendsB levels x := by
  cases x with
  | dict r =>
    simp only [missesAttr, offendsB]
    rcases h : List.any levels fun l => !(Record.keys r).contains l with _ | _
    · rw [List.any_eq_false] at h
      symm
      simp only [decide_eq_false_iff_not]
      rintro ⟨l, hl, hnk⟩
      have := h l hl
      simp only [Bool.not_eq_true', List.contains, List.elem_eq_mem, decide_eq_false_iff_not] at this
      exact absurd this (by simpa using hnk)
    · rw [List.any_eq_true] at h
      rcases h with ⟨l, hl, hc⟩
      symm
      simp only [decide_eq_true_eq]
      refine ⟨l, hl, ?_⟩
      simpa [List.contains, List.elem_eq_mem] using hc
  | list xs => rfl
  | scalar v => rfl

/-- C4: the validation gate raises `InvalidDataStructureError` for every
non-list input, for the empty list, and for every list containing a
non-dictionary element; it never raises that error on a non-empty list of
dictionaries, and when additionally no record misses a declared nesting
attribute it returns `True`. -/
theorem claim_C4 (levels : List String) :
    (∀ v : PyVal, v.isList = false →
      validate_input_data levels v = .error .invalidDataStructure) ∧
    (validate_input_data levels (.list []) = .error .invalidDataStructure) ∧
    (∀ xs : List PyVal, (∃ x ∈ xs, x.isDict = false) →
      validate_input_data levels (.list xs) = .error .invalidDataStructure) ∧
    (∀ xs : List PyVal, xs ≠ [] → (∀ x ∈ xs, x.isDict = true) →
      validate_input_data levels (.list xs) ≠ .error .invalidDataStructure) ∧
    (∀ xs : List PyVal, xs ≠ [] → (∀ x ∈ xs, x.isDict = true) →
      (∀ r : Record, PyVal.dict r ∈ xs → ∀ l ∈ levels, l ∈ Record.keys r) →
      validate_input_data levels (.list xs) = .ok true) := by
  refine ⟨?_, rfl, ?_, ?_, ?_⟩
  · intro v hv
    cases v with
    | list xs => simp [PyVal.isList] at hv
    | dict r => simp [validate_input_data, PyVal.isList]
    | scalar v => simp [validate_input_data, PyVal.isList]
  · rintro xs ⟨x, hx, hxd⟩
    have hall : xs.all PyVal.isDict = false := by
      rw [List.all_eq_false]
      exact ⟨x, hx, by simp [hxd]⟩
    have hne : xs.isEmpty = false := by
      simp only [List.isEmpty_eq_false]
      exact List.ne_nil_of_mem hx
    simp [validate_input_data, PyVal.isList, PyVal.truthy, hall, hne]
  · intro xs hne hd
    have hall : xs.all PyVal.isDict = true := List.all_eq_true.mpr hd
    have hne' : xs.isEmpty = false := by simpa [List.isEmpty_eq_false] using hne
    simp only [validate_input_data, PyVal.isList, PyVal.truthy, hall, hne',
      Bool.not_false, Bool.and_true, Bool.true_and, Bool.and_self, Bool.not_true,
      Bool.false_eq_true, if_false]
    split <;> simp
  · intro xs hne hd hkeys
    have hall : xs.all PyVal.isDict = true := List.all_eq_true.mpr hd
    have hne' : xs.isEmpty = false := by simpa [List.isEmpty_eq_false] using hne
    have hfil : xs.filter (missesAttr levels) = [] := by
      rw [List.filter_eq_nil_iff]
      intro x hx
      cases x with
      | dict r =>
        simp only [missesAttr, Bool.not_eq_true, List.any_eq_false]
        intro l hl
        simp [List.contains, List.elem_eq_mem, hkeys r hx l hl]
      | list ys => exact absurd (hd _ hx) (by simp [PyVal.isDict])
      | scalar v => exact absurd (hd _ hx) (by simp [PyVal.isDict])
    simp [validate_input_data, PyVal.isList, PyVal.truthy, hall, hne', hfil]

/-- Witness for C4: the third part at a list containing a non-dictionary
element. -/
theorem claim_C4_witness :
    validate_input_data ["a"] (.list [.scalar (Val.s "what")]) =
      .error .invalidDataStructure :=
  (claim_C4 ["a"]).2.2.1 [.scalar (Val.s "what")]
    ⟨.scalar (Val.s "what"), by simp, rfl⟩

/-- C5: on a non-empty list of records in which at least one record's key
set does not include every declared nesting attribute, validation raises
`DataAttributeMissingError` and the count it reports equals the number of
records missing at least one declared nesting attribute. -/
theorem claim_C5 (levels : List String) (xs : List PyVal)
    (hd : ∀ x ∈ xs, x.isDict = true)
    (hmiss : ∃ r : Record, PyVal.dict r ∈ xs ∧ ∃ l ∈ levels, l ∉ Record.keys r) :
    validate_input_data levels (.list xs) =
      .error (.dataAttributeMissing ((xs.filter (offendsB levels)).length)) := by
  rcases hmiss with ⟨r, hr, hlr⟩
  have hne' : xs.isEmpty = false := by
    simp only [List.isEmpty_eq_false]
    exact List.ne_nil_of_mem hr
  have hall : xs.all PyVal.isDict = true := List.all_eq_true.mpr hd
  have hfe : xs.filter (missesAttr levels) = xs.filter (offendsB levels) :=
    List.filter_congr (fun x _ => missesAttr_eq_offendsB levels x)
  have hpos : (xs.filter (offendsB levels)).length ≠ 0 := by
    have hmem : PyVal.dict r ∈ xs.filter (offendsB levels) :=
      List.mem_filter.mpr ⟨hr, by simp only [offendsB, decide_eq_true_eq]; exact hlr⟩
    simpa [List.length_eq_zero] using List.ne_nil_of_mem hmem
  simp [validate_input_data, PyVal.isList, PyVal.truthy, hall, hne', hfe, hpos]

/-- Witness for C5: one of two records misses the `country` attribute and
the reported count is 1. -/
theorem claim_C5_witness :
    validate_input_data ["currency", "country"]
        (.list [.dict [("currency", Val.s "EUR"), ("country", Val.s "FR")],
                .dict [("currency", Val.s "USD")]]) =
      .error (.dataAttributeMissing 1) :=
  claim_C5 ["currency", "country"]
    [.dict [("currency", Val.s "EUR"), ("country", Val.s "FR")],
     .dict [("currency", Val.s "USD")]]
    (by intro x hx; simp only [List.mem_cons, List.not_mem_nil, or_false] at hx
        rcases hx with h | h <;> subst h <;> rfl)
    ⟨[("currency", Val.s "USD")], by simp, "country", by simp, by decide⟩

/-! ## Lemmas about the branch builder -/

theorem find?_eq_head?_filter (p : α → Bool) :
    ∀ xs : List α, xs.find? p = (xs.filter p).head?
  | [] => rfl
  | x :: xs => by
    by_cases h : p x
    · rw [List.find?_cons_of_pos _ h, List.filter_cons_of_pos h]; rfl
    · rw [List.find?_cons_of_neg _ (by simp [h]), List.filter_cons_of_neg (by simp [h]),
        find?_eq_head?_filter p xs]

theorem replaceFirst_self {v : Val} {c : Tree} :
    ∀ {cs : List Tree}, cs.find? (fun c => decide (c.name = v)) = some c →
      replaceFirst cs v c = cs := by
  intro cs
  induction cs with
  | nil => intro h; cases h
  | cons c0 rest ih =>
    intro h
    by_cases h0 : c0.name = v
    · rw [List.find?_cons_of_pos _ (by simp [h0])] at h
      cases h
      simp [replaceFirst, h0]
    · rw [List.find?_cons_of_neg _ (by simp [h0])] at h
      simp [replaceFirst, h0, ih h]

theorem find?_replaceFirst {v : Val} {c c' : Tree} (hname : c'.name = c.name) :
    ∀ {cs : List Tree}, cs.find? (fun c => decide (c.name = v)) = some c →
      (replaceFirst cs v c').find? (fun c => decide (c.name = v)) = some c' := by
  intro cs
  induction cs with
  | nil => intro h; cases h
  | cons c0 rest ih =>
    intro h
    by_cases h0 : c0.name = v
    · rw [List.find?_cons_of_pos _ (by simp [h0])] at h
      cases h
      have hcv : c'.name = v := hname.trans h0
      simp only [replaceFirst, if_pos h0]
      rw [List.find?_cons_of_pos _ (by simp [hcv])]
    · rw [List.find?_cons_of_neg _ (by simp [h0])] at h
      simp only [replaceFirst, h0, if_false]
      rw [List.find?_cons_of_neg _ (by simp [h0])]
      exact ih h

theorem chainT_name (v : Val) (vs : List Val) : (chainT v vs).name = v := by
  cases vs <;> rfl

theorem pathExistsB_chainT (v : Val) : ∀ vs : List Val, pathExistsB (chainT v vs) vs = true
  | [] => rfl
  | w :: ws => by
    simp only [chainT, pathExistsB, Tree.children]
    rw [List.find?_cons_of_pos _ (by simp [chainT_name])]
    exact pathExistsB_chainT w ws

theorem pathExistsB_one_child (n : Val) (vl : List Record) (v : Val) (vs : List Val) :
    pathExistsB (Tree.node n vl [chainT v vs]) (v :: vs) = true := by
  simp only [pathExistsB, Tree.children]
  rw [List.find?_cons_of_pos _ (by simp [chainT_name])]
  exact pathExistsB_chainT v vs

theorem valsOf_congr {r1 r2 : Record} :
    ∀ {ls : List String}, (∀ l ∈ ls, lookupR r2 l = lookupR r1 l) →
      valsOf r2 ls = valsOf r1 ls := by
  intro ls
  induction ls with
  | nil => intro _; rfl
  | cons l rest ih =>
    intro h
    simp only [valsOf, h l (by simp), ih (fun x hx => h x (by simp [hx]))]

theorem valsOf_ne_nil_record {r : Record} {ls : List String} {v : Val} {vs : List Val}
    (h : valsOf r ls = some (v :: vs)) : r ≠ [] := by
  cases ls with
  | nil => simp [valsOf] at h
  | cons l rest =>
    simp only [valsOf] at h
    cases hq : lookupR r l with
    | none => rw [hq] at h; cases h
    | some w => exact lookupR_ne_nil hq

/-- The name of the node returned as the (mutated) current node is the
name of the current node: `_build_branch` never relabels a node. -/
theorem build_branch_go_name (ls : List String) (ir : Bool) (t : Tree) (r : Record) :
    ((build_branch_go ls ir t r).1).name = t.name := by
  cases ls with
  | nil =>
    simp only [build_branch_go]
    split
    · rfl
    · split <;> rfl
  | cons level rest =>
    simp only [build_branch_go]
    split
    · rfl
    · cases lookupR r level with
      | none => rfl
      | some v =>
        dsimp only
        split
        · rfl
        · split
          · rfl
          · split <;> rfl

theorem pathExistsB_node (n : Val) (vl : List Record) (cs : List Tree) (v : Val)
    (p : List Val) :
    pathExistsB (Tree.node n vl cs) (v :: p) =
      match cs.find? (fun c => decide (c.name = v)) with
      | none => false
      | some c => pathExistsB c p := rfl

/-- If the record's full nesting path already exists in the tree,
`_build_branch` raises `DuplicateNodesFoundError` and leaves the tree
exactly as it was: the error is raised before any node is constructed,
and the descent only re-traverses existing children. -/
theorem go_duplicate_of_pathExists :
    ∀ (ls : List String) (ir : Bool) (t : Tree) (r : Record) (p : List Val),
      ls ≠ [] → valsOf r ls = some p → pathExistsB t p = true →
      build_branch_go ls ir t r = (t, .error .duplicateNodesFound) := by
  intro ls
  induction ls with
  | nil => intro ir t r p h; exact absurd rfl h
  | cons level rest ih =>
    intro ir t r p _ hv hex
    simp only [valsOf] at hv
    cases hq : lookupR r level with
    | none => rw [hq] at hv; cases hv
    | some v =>
      rw [hq] at hv
      cases hv' : valsOf r rest with
      | none => rw [hv'] at hv; cases hv
      | some p' =>
        rw [hv'] at hv
        simp only [Option.map_some'] at hv
        cases hv
        have hre : r.isEmpty = false := isEmpty_false_of_lookupR hq
        simp only [pathExistsB] at hex
        rw [find?_eq_head?_filter] at hex
        simp only [build_branch_go, hre, Bool.false_eq_true, if_false, hq]
        cases hf : List.filter (fun c => decide (c.name = v)) t.children with
        | nil => rw [hf] at hex; cases hex
        | cons c0 rest0 =>
          rw [hf] at hex
          simp only [List.head?_cons] at hex
          cases rest0 with
          | cons c1 rest1 =>
            rw [if_pos (by simp only [List.length_cons]; omega)]
          | nil =>
            rw [if_neg (by simp)]
            by_cases hrest : rest = []
            · subst hrest
              rw [if_pos (by simp)]
            · rw [if_neg (by simp [hrest])]
              dsimp only
              have hfind : t.children.find? (fun c => decide (c.name = v)) = some c0 := by
                rw [find?_eq_head?_filter, hf]; rfl
              have hih := ih false c0 r p' hrest hv' hex
              rw [hih]
              simp only [Except.map]
              rw [replaceFirst_self hfind, Tree.eta]

/-- A successful `_build_branch` call returns the record's values along
the consumed levels as the leaf path, and that path exists in the
returned tree. -/
theorem go_ok_valsOf_pathExists :
    ∀ (ls : List String) (ir : Bool) (t t' : Tree) (r : Record) (p : List Val),
      build_branch_go ls ir t r = (t', .ok p) →
      valsOf r ls = some p ∧ pathExistsB t' p = true := by
  intro ls
  induction ls with
  | nil =>
    intro ir t t' r p h
    simp only [build_branch_go] at h
    by_cases hre : r.isEmpty
    · rw [if_pos hre] at h; cases h
    · rw [if_neg hre] at h
      cases ir with
      | true => simp at h
      | false =>
        simp only [if_false, Bool.false_eq_true] at h
        cases h
        exact ⟨rfl, rfl⟩
  | cons level rest ih =>
    intro ir t t' r p h
    simp only [build_branch_go] at h
    by_cases hre : r.isEmpty
    · rw [if_pos hre] at h; cases h
    · rw [if_neg hre] at h
      cases hq : lookupR r level with
      | none => rw [hq] at h; cases h
      | some v =>
        rw [hq] at h
        dsimp only at h
        by_cases h1 : (List.filter (fun c => decide (c.name = v)) t.children).length > 1
        · rw [if_pos h1] at h; cases h
        · rw [if_neg h1] at h
          by_cases h2 : (!(List.filter (fun c => decide (c.name = v)) t.children).isEmpty
              && rest.isEmpty) = true
          · rw [if_pos h2] at h; cases h
          · rw [if_neg h2] at h
            cases hf : List.filter (fun c => decide (c.name = v)) t.children with
            | nil =>
              rw [hf] at h
              dsimp only at h
              cases h3 : (build_branch_go rest false (Tree.node v [] []) r).2 with
              | error e => rw [h3] at h; simp [Except.map] at h
              | ok p'' =>
                rw [h3] at h
                simp only [Except.map, Prod.mk.injEq, Except.ok.injEq] at h
                obtain ⟨ht', hp⟩ := h
                have hih := ih false (Tree.node v [] [])
                  (build_branch_go rest false (Tree.node v [] []) r).1 r p''
                  (by rw [← h3])
                refine ⟨?_, ?_⟩
                · simp only [valsOf, hq, hih.1, Option.map_some', hp]
                · rw [← ht', ← hp, pathExistsB_node]
                  rw [find?_eq_head?_filter, List.filter_append, hf,
                    List.filter_cons_of_pos (by
                      have hname := build_branch_go_name rest false (Tree.node v [] []) r
                      simp only [Tree.name] at hname
                      simp [Tree.name, hname]),
                    List.nil_append, List.head?_cons]
                  exact hih.2
            | cons c0 rest0 =>
              rw [hf] at h
              dsimp only at h
              cases h3 : (build_branch_go rest false c0 r).2 with
              | error e => rw [h3] at h; simp [Except.map] at h
              | ok p'' =>
                rw [h3] at h
                simp only [Except.map, Prod.mk.injEq, Except.ok.injEq] at h
                obtain ⟨ht', hp⟩ := h
                have hih := ih false c0 (build_branch_go rest false c0 r).1 r p''
                  (by rw [← h3])
                have hfind : t.children.find? (fun c => decide (c.name = v)) = some c0 := by
                  rw [find?_eq_head?_filter, hf]; rfl
                refine ⟨?_, ?_⟩
                · simp only [valsOf, hq, hih.1, Option.map_some', hp]
                · rw [← ht', ← hp, pathExistsB_node]
                  rw [find?_replaceFirst (by rw [build_branch_go_name]) hfind]
                  exact hih.2

theorem valsOf_cons {r : Record} {l : String} {ls : List String} {vs : List Val}
    (h : valsOf r (l :: ls) = some vs) :
    ∃ v2 vs2, vs = v2 :: vs2 ∧ lookupR r l = some v2 ∧ valsOf r ls = some vs2 := by
  simp only [valsOf] at h
  cases hq : lookupR r l with
  | none => rw [hq] at h; cases h
  | some v2 =>
    rw [hq] at h
    cases hv : valsOf r ls with
    | none => rw [hv] at h; cases h
    | some vs2 =>
      rw [hv] at h
      simp only [Option.map_some', Option.some.injEq] at h
      exact ⟨v2, vs2, h.symm, rfl, rfl⟩

/-- Building a record into a node with no children creates exactly the
single fresh chain of its level values and returns that chain as the
path. -/
theorem go_fresh_chain :
    ∀ (ls : List String) (ir : Bool) (n : Val) (vl : List Record) (r : Record)
      (v : Val) (vs : List Val),
      valsOf r ls = some (v :: vs) →
      build_branch_go ls ir (Tree.node n vl []) r =
        (Tree.node n vl [chainT v vs], .ok (v :: vs)) := by
  intro ls
  induction ls with
  | nil => intro ir n vl r v vs h; simp [valsOf] at h
  | cons level rest ih =>
    intro ir n vl r v vs h
    obtain ⟨v0, vs0, hvs, hq, hv'⟩ := valsOf_cons h
    cases hvs
    have hre : r.isEmpty = false := isEmpty_false_of_lookupR hq
    simp only [build_branch_go, hre, Bool.false_eq_true, if_false, hq]
    dsimp only [Tree.children, Tree.name, Tree.values]
    simp only [List.filter_nil]
    rw [if_neg (by simp)]
    rw [if_neg (by simp)]
    cases rest with
    | nil =>
      simp only [valsOf, Option.some.injEq] at hv'
      cases hv'
      simp [build_branch_go, hre, chainT, Except.map]
    | cons l2 rest2 =>
      obtain ⟨v2, vs2, hvs2, hq2, hv2⟩ := valsOf_cons hv'
      cases hvs2
      rw [ih false v [] r v2 vs2 hv']
      simp [chainT, Except.map]

/-! ## C2 and C9: duplicate detection and its atomicity -/

/-- C2: for two records with identical values on all declared nesting
attributes, building the first from the fresh root-only tree succeeds
(creating its branch), and building the second with `_build_branch` on
the resulting tree raises `DuplicateNodesFoundError`. -/
theorem claim_C2 (levels : List String) (r1 r2 : Record) (v : Val) (vs : List Val)
    (h1 : valsOf r1 levels = some (v :: vs))
    (heq : ∀ l ∈ levels, lookupR r2 l = lookupR r1 l) :
    build_branch_go levels true root_node r1 =
      (Tree.node (Val.s "root") [] [chainT v vs], .ok (v :: vs)) ∧
    build_branch_go levels true (Tree.node (Val.s "root") [] [chainT v vs]) r2 =
      (Tree.node (Val.s "root") [] [chainT v vs], .error .duplicateNodesFound) := by
  have hfirst := go_fresh_chain levels true (Val.s "root") [] r1 v vs h1
  refine ⟨hfirst, ?_⟩
  have h2 : valsOf r2 levels = some (v :: vs) := (valsOf_congr heq).trans h1
  have hne : levels ≠ [] := by
    intro h; subst h; simp [valsOf] at h1
  exact go_duplicate_of_pathExists levels true _ r2 (v :: vs) hne h2
    (pathExistsB_one_child _ [] v vs)

/-- Witness for C2: records with the same value on level `a`. -/
theorem claim_C2_witness :
    build_branch_go ["a"] true root_node [("a", Val.s "x")] =
      (Tree.node (Val.s "root") [] [chainT (Val.s "x") []], .ok [Val.s "x"]) ∧
    build_branch_go ["a"] true (Tree.node (Val.s "root") [] [chainT (Val.s "x") []])
        [("a", Val.s "x"), ("b", Val.i 1)] =
      (Tree.node (Val.s "root") [] [chainT (Val.s "x") []],
        .error .duplicateNodesFound) :=
  claim_C2 ["a"] [("a", Val.s "x")] [("a", Val.s "x"), ("b", Val.i 1)] (Val.s "x") []
    rfl (by decide)

/-- C9: when `_build_branch` is called from the root with the full level
list on a record whose complete nesting-attribute value path already
exists, it returns the tree exactly as it was together with the raised
`DuplicateNodesFoundError`: the error fires before any node construction
and the descent only reuses existing children. -/
theorem claim_C9 (levels : List String) (t : Tree) (r : Record) (p : List Val)
    (hne : levels ≠ []) (hv : valsOf r levels = some p)
    (hex : pathExistsB t p = true) :
    build_branch_go levels true t r = (t, .error .duplicateNodesFound) :=
  go_duplicate_of_pathExists levels true t r p hne hv hex

/-- Witness for C9: a one-level tree already containing the record's path. -/
theorem claim_C9_witness :
    build_branch_go ["a"] true (Tree.node (Val.s "root") [] [Tree.node (Val.s "x") [] []])
        [("a", Val.s "x")] =
      (Tree.node (Val.s "root") [] [Tree.node (Val.s "x") [] []],
        .error .duplicateNodesFound) :=
  claim_C9 ["a"] (Tree.node (Val.s "root") [] [Tree.node (Val.s "x") [] []])
    [("a", Val.s "x")] [Val.s "x"] (by decide) rfl rfl

/-! ## C8: sibling-label uniqueness -/

theorem namesNodupB_iff : ∀ xs : List Val, namesNodupB xs = true ↔ xs.Nodup := by
  intro xs
  induction xs with
  | nil => simp [namesNodupB]
  | cons v vs ih =>
    simp [namesNodupB, ih, List.contains, List.elem_eq_mem]

theorem sibUniqueAll_iff_mem :
    ∀ cs : List Tree, sibUniqueAll cs = true ↔ ∀ c ∈ cs, sibUniqueB c = true := by
  intro cs
  induction cs with
  | nil => simp [sibUniqueAll]
  | cons c cs ih =>
    simp only [sibUniqueAll, Bool.and_eq_true, ih, List.mem_cons]
    constructor
    · rintro ⟨h1, h2⟩ x (rfl | hx)
      · exact h1
      · exact h2 x hx
    · intro h
      exact ⟨h c (Or.inl rfl), fun x hx => h x (Or.inr hx)⟩

theorem replaceFirst_map_name {v : Val} {c' : Tree} (hv : c'.name = v) :
    ∀ cs : List Tree, (replaceFirst cs v c').map Tree.name = cs.map Tree.name := by
  intro cs
  induction cs with
  | nil => rfl
  | cons c0 rest ih =>
    by_cases h0 : c0.name = v
    · simp [replaceFirst, h0, hv]
    · simp [replaceFirst, h0, ih]

theorem sibUniqueAll_replaceFirst {v : Val} {c' : Tree}
    (hc' : sibUniqueB c' = true) :
    ∀ cs : List Tree, sibUniqueAll cs = true →
      sibUniqueAll (replaceFirst cs v c') = true := by
  intro cs
  induction cs with
  | nil => intro h; exact h
  | cons c0 rest ih =>
    intro h
    simp only [sibUniqueAll, Bool.and_eq_true] at h
    by_cases h0 : c0.name = v
    · simp only [replaceFirst, h0, if_true, sibUniqueAll, Bool.and_eq_true]
      exact ⟨hc', h.2⟩
    · simp only [replaceFirst, h0, if_false, sibUniqueAll, Bool.and_eq_true]
      exact ⟨h.1, ih h.2⟩

theorem not_mem_names_of_filter_nil {v : Val} {cs : List Tree}
    (hf : cs.filter (fun c => decide (c.name = v)) = []) :
    v ∉ cs.map Tree.name := by
  rw [List.filter_eq_nil_iff] at hf
  intro hv
  rw [List.mem_map] at hv
  rcases hv with ⟨c, hc, hname⟩
  exact hf c hc (by simp [hname])

/-- A successful `_build_branch` preserves invariant I1 (no two children
of any node share a label): a new child is created only when no existing
child carries the looked-up value. -/
theorem go_preserves_sibUnique :
    ∀ (ls : List String) (ir : Bool) (t t' : Tree) (r : Record) (p : List Val),
      sibUniqueB t = true → build_branch_go ls ir t r = (t', .ok p) →
      sibUniqueB t' = true := by
  intro ls
  induction ls with
  | nil =>
    intro ir t t' r p hu h
    simp only [build_branch_go] at h
    by_cases hre : r.isEmpty
    · rw [if_pos hre] at h; cases h
    · rw [if_neg hre] at h
      cases ir with
      | true => simp at h
      | false =>
        simp only [if_false, Bool.false_eq_true] at h
        cases h
        exact hu
  | cons level rest ih =>
    intro ir t t' r p hu h
    simp only [build_branch_go] at h
    by_cases hre : r.isEmpty
    · rw [if_pos hre] at h; cases h
    · rw [if_neg hre] at h
      cases hq : lookupR r level with
      | none => rw [hq] at h; cases h
      | some v =>
        rw [hq] at h
        dsimp only at h
        by_cases h1 : (List.filter (fun c => decide (c.name = v)) t.children).length > 1
        · rw [if_pos h1] at h; cases h
        · rw [if_neg h1] at h
          by_cases h2 : (!(List.filter (fun c => decide (c.name = v)) t.children).isEmpty
              && rest.isEmpty) = true
          · rw [if_pos h2] at h; cases h
          · rw [if_neg h2] at h
            cases t with
            | node n0 vl0 cs0 =>
              simp only [sibUniqueB, Bool.and_eq_true] at hu
              cases hf : List.filter (fun c => decide (c.name = v))
                  (Tree.node n0 vl0 cs0).children with
              | nil =>
                rw [hf] at h
                dsimp only at h
                cases h3 : (build_branch_go rest false (Tree.node v [] []) r).2 with
                | error e => rw [h3] at h; simp [Except.map] at h
                | ok p'' =>
                  rw [h3] at h
                  simp only [Except.map, Prod.mk.injEq] at h
                  obtain ⟨ht', _⟩ := h
                  rw [← ht']
                  have hsub : sibUniqueB (build_branch_go rest false (Tree.node v [] []) r).1
                      = true :=
                    ih false (Tree.node v [] [])
                      ((build_branch_go rest false (Tree.node v [] []) r).1) r p''
                      rfl (by rw [← h3])
                  have hname : ((build_branch_go rest false (Tree.node v [] []) r).1).name = v :=
                    build_branch_go_name rest false (Tree.node v [] []) r
                  simp only [sibUniqueB, Tree.children_node, Tree.name_node, Tree.values_node,
                    Bool.and_eq_true, List.map_append, List.map_cons, List.map_nil]
                  refine ⟨?_, ?_⟩
                  · rw [namesNodupB_iff]
                    rw [List.nodup_append]
                    refine ⟨(namesNodupB_iff _).mp hu.1, by simp, ?_⟩
                    intro a ha
                    simp only [hname, List.mem_singleton]
                    intro hav
                    subst hav
                    exact not_mem_names_of_filter_nil (by simpa [Tree.children_node] using hf) ha
                  · rw [sibUniqueAll_iff_mem]
                    intro c hc
                    rw [List.mem_append] at hc
                    rcases hc with hc | hc
                    · exact (sibUniqueAll_iff_mem _).mp hu.2 c hc
                    · rw [List.mem_singleton] at hc
                      subst hc
                      exact hsub
              | cons c0 rest0 =>
                rw [hf] at h
                dsimp only at h
                cases h3 : (build_branch_go rest false c0 r).2 with
                | error e => rw [h3] at h; simp [Except.map] at h
                | ok p'' =>
                  rw [h3] at h
                  simp only [Except.map, Prod.mk.injEq] at h
                  obtain ⟨ht', _⟩ := h
                  rw [← ht']
                  have hc0mem : c0 ∈ cs0 := by
                    have : c0 ∈ List.filter (fun c => decide (c.name = v))
                        (Tree.node n0 vl0 cs0).children := by
                      rw [hf]; exact List.mem_cons_self _ _
                    exact List.mem_of_mem_filter this
                  have hc0name : c0.name = v := by
                    have : c0 ∈ List.filter (fun c => decide (c.name = v))
                        (Tree.node n0 vl0 cs0).children := by
                      rw [hf]; exact List.mem_cons_self _ _
                    have := List.of_mem_filter this
                    simpa using this
                  have hsub : sibUniqueB (build_branch_go rest false c0 r).1 = true :=
                    ih false c0 ((build_branch_go rest false c0 r).1) r p''
                      ((sibUniqueAll_iff_mem _).mp hu.2 c0 hc0mem) (by rw [← h3])
                  have hname : ((build_branch_go rest false c0 r).1).name = v :=
                    (build_branch_go_name rest false c0 r).trans hc0name
                  simp only [sibUniqueB, Tree.children_node, Tree.name_node, Tree.values_node,
                    Bool.and_eq_true]
                  refine ⟨?_, ?_⟩
                  · rw [replaceFirst_map_name hname]
                    exact hu.1
                  · exact sibUniqueAll_replaceFirst hsub cs0 hu.2

theorem setValuesAt_name : ∀ (p : List Val) (t : Tree) (vs : List Record),
    (setValuesAt t p vs).name = t.name := by
  intro p t vs
  cases p with
  | nil => cases t; rfl
  | cons v rest =>
    cases t with
    | node n0 vl0 cs0 =>
      simp only [setValuesAt]
      cases (Tree.children (Tree.node n0 vl0 cs0)).find? (fun c => decide (c.name = v)) with
      | none => rfl
      | some c => rfl

theorem setValuesAt_sibUnique :
    ∀ (p : List Val) (t : Tree) (vs : List Record), sibUniqueB t = true →
      sibUniqueB (setValuesAt t p vs) = true := by
  intro p
  induction p with
  | nil =>
    intro t vs hu
    cases t with
    | node n0 vl0 cs0 => exact hu
  | cons v rest ih =>
    intro t vs hu
    cases t with
    | node n0 vl0 cs0 =>
      simp only [setValuesAt]
      cases hfind : (Tree.children (Tree.node n0 vl0 cs0)).find?
          (fun c => decide (c.name = v)) with
      | none => exact hu
      | some c =>
        simp only [sibUniqueB, Bool.and_eq_true] at hu ⊢
        have hcmem : c ∈ cs0 := List.mem_of_find?_eq_some hfind
        have hcname : c.name = v := by
          have := List.find?_some hfind
          simpa using this
        have hnew : (setValuesAt c rest vs).name = v :=
          (setValuesAt_name rest c vs).trans hcname
        refine ⟨?_, ?_⟩
        · rw [Tree.children, replaceFirst_map_name hnew]
          exact hu.1
        · rw [Tree.children]
          exact sibUniqueAll_replaceFirst
            (ih c vs ((sibUniqueAll_iff_mem _).mp hu.2 c hcmem)) cs0 hu.2

theorem loop_preserves_sibUnique :
    ∀ (records : List PyVal) (ls : List String) (t t' : Tree),
      sibUniqueB t = true → create_tree_loop ls t records = (t', .ok ()) →
      sibUniqueB t' = true := by
  intro records
  induction records with
  | nil =>
    intro ls t t' hu h
    simp only [create_tree_loop] at h
    cases h
    exact hu
  | cons x rest ih =>
    intro ls t t' hu h
    simp only [create_tree_loop] at h
    cases x with
    | dict record =>
      dsimp only at h
      cases h2 : (build_branch_go ls true t record).2 with
      | error e => rw [h2] at h; cases h
      | ok leaf_path =>
        rw [h2] at h
        dsimp only at h
        cases h3 : dict_comprehension (remaining_keys record ls) record with
        | error e => rw [h3] at h; cases h
        | ok payload =>
          rw [h3] at h
          dsimp only at h
          have hb : sibUniqueB (build_branch_go ls true t record).1 = true :=
            go_preserves_sibUnique ls true t _ record leaf_path hu (by rw [← h2])
          exact ih ls _ t' (setValuesAt_sibUnique _ _ _ hb) h
    | list ys => dsimp only at h; cases h
    | scalar v => dsimp only at h; cases h

/-- C8: sibling-label uniqueness.  First conjunct: any successful
`_build_branch` call preserves the invariant.  Second: every tree
obtained by a successful `create_tree` from the fresh root satisfies it.
Third: a `_build_branch` step creates a new child under the current node
exactly when no existing child carries the looked-up value — otherwise
the child-label list is unchanged. -/
theorem claim_C8 :
    (∀ (ls : List String) (ir : Bool) (t t' : Tree) (r : Record) (p : List Val),
      sibUniqueB t = true → build_branch_go ls ir t r = (t', .ok p) →
      sibUniqueB t' = true) ∧
    (∀ (ls : List String) (input : PyVal) (t' : Tree),
      create_tree ls root_node input = (t', .ok ()) → sibUniqueB t' = true) ∧
    (∀ (level : String) (rest : List String) (ir : Bool) (t t' : Tree)
      (r : Record) (p : List Val),
      build_branch_go (level :: rest) ir t r = (t', .ok p) →
      ∃ v, lookupR r level = some v ∧
        ((v ∈ t.children.map Tree.name ∧
          t'.children.map Tree.name = t.children.map Tree.name) ∨
         (v ∉ t.children.map Tree.name ∧
          t'.children.map Tree.name = t.children.map Tree.name ++ [v]))) := by
  refine ⟨go_preserves_sibUnique, ?_, ?_⟩
  · intro ls input t' h
    simp only [create_tree] at h
    cases hv : validate_input_data ls input with
    | error e => rw [hv] at h; cases h
    | ok valid =>
      rw [hv] at h
      dsimp only at h
      cases valid with
      | false => simp only [if_false, Bool.false_eq_true] at h; cases h; decide
      | true =>
        simp only [if_true] at h
        cases input with
        | list records =>
          exact loop_preserves_sibUnique records ls root_node t' (by decide) h
        | dict r => cases h; decide
        | scalar v => cases h; decide
  · intro level rest ir t t' r p h
    simp only [build_branch_go] at h
    by_cases hre : r.isEmpty
    · rw [if_pos hre] at h; cases h
    · rw [if_neg hre] at h
      cases hq : lookupR r level with
      | none => rw [hq] at h; cases h
      | some v =>
        rw [hq] at h
        dsimp only at h
        refine ⟨v, rfl, ?_⟩
        by_cases h1 : (List.filter (fun c => decide (c.name = v)) t.children).length > 1
        · rw [if_pos h1] at h; cases h
        · rw [if_neg h1] at h
          by_cases h2 : (!(List.filter (fun c => decide (c.name = v)) t.children).isEmpty
              && rest.isEmpty) = true
          · rw [if_pos h2] at h; cases h
          · rw [if_neg h2] at h
            cases hf : List.filter (fun c => decide (c.name = v)) t.children with
            | nil =>
              rw [hf] at h
              dsimp only at h
              cases h3 : (build_branch_go rest false (Tree.node v [] []) r).2 with
              | error e => rw [h3] at h; simp [Except.map] at h
              | ok p'' =>
                rw [h3] at h
                simp only [Except.map, Prod.mk.injEq] at h
                obtain ⟨ht', _⟩ := h
                refine Or.inr ⟨not_mem_names_of_filter_nil hf, ?_⟩
                rw [← ht']
                simp only [Tree.children_node, List.map_append, List.map_cons, List.map_nil]
                rw [build_branch_go_name rest false (Tree.node v [] []) r]
                rfl
            | cons c0 rest0 =>
              rw [hf] at h
              dsimp only at h
              cases h3 : (build_branch_go rest false c0 r).2 with
              | error e => rw [h3] at h; simp [Except.map] at h
              | ok p'' =>
                rw [h3] at h
                simp only [Except.map, Prod.mk.injEq] at h
                obtain ⟨ht', _⟩ := h
                have hc0f : c0 ∈ List.filter (fun c => decide (c.name = v)) t.children := by
                  rw [hf]; exact List.mem_cons_self _ _
                have hc0name : c0.name = v := by
                  have := List.of_mem_filter hc0f
                  simpa using this
                refine Or.inl ⟨?_, ?_⟩
                · exact List.mem_map.mpr ⟨c0, List.mem_of_mem_filter hc0f, hc0name⟩
                · rw [← ht']
                  simp only [Tree.children_node]
                  exact replaceFirst_map_name
                    ((build_branch_go_name rest false c0 r).trans hc0name) t.children

/-- Witness for C8: the first conjunct applied to a fresh root and a
one-level record. -/
theorem claim_C8_witness :
    sibUniqueB (build_branch_go ["a"] true root_node [("a", Val.s "x")]).1 = true :=
  claim_C8.1 ["a"] true root_node
    (build_branch_go ["a"] true root_node [("a", Val.s "x")]).1
    [("a", Val.s "x")] [Val.s "x"] (by decide) (by rfl)

/-! ## C6 and C10: the leaf payload -/

theorem mem_eraseDups_loop {α} [BEq α] :
    ∀ (as bs : List α) (x : α), x ∈ List.eraseDups.loop as bs → x ∈ as ∨ x ∈ bs := by
  intro as
  induction as with
  | nil =>
    intro bs x h
    simp only [List.eraseDups.loop, List.mem_reverse] at h
    exact Or.inr h
  | cons a as ih =>
    intro bs x h
    simp only [List.eraseDups.loop] at h
    cases he : bs.elem a with
    | true =>
      rw [he] at h
      rcases ih bs x h with h1 | h1
      · exact Or.inl (List.mem_cons_of_mem a h1)
      · exact Or.inr h1
    | false =>
      rw [he] at h
      rcases ih (a :: bs) x h with h1 | h1
      · exact Or.inl (List.mem_cons_of_mem a h1)
      · rw [List.mem_cons] at h1
        rcases h1 with h1 | h1
        · exact Or.inl (List.mem_cons.mpr (Or.inl h1))
        · exact Or.inr h1

theorem mem_of_mem_eraseDups {α} [BEq α] {ls : List α} {x : α}
    (h : x ∈ ls.eraseDups) : x ∈ ls := by
  rcases mem_eraseDups_loop ls [] x h with h1 | h1
  · exact h1
  · cases h1

theorem lookupR_cons_ne {k0 k' : String} {v0 : Val} {tail : Record} (h : k' ≠ k0) :
    lookupR ((k0, v0) :: tail) k' = lookupR tail k' := by
  simp only [lookupR]
  rw [List.find?_cons_of_neg _ (by simp only [decide_eq_true_eq]; exact fun he => h he.symm)]

theorem lookupR_cons_self (k0 : String) (v0 : Val) (tail : Record) :
    lookupR ((k0, v0) :: tail) k0 = some v0 := by
  simp only [lookupR]
  rw [List.find?_cons_of_pos _ (by simp)]
  rfl

theorem dict_comprehension_skip {k0 : String} {v0 : Val} {tail : Record} :
    ∀ ks : List String, (∀ k' ∈ ks, k' ≠ k0) →
      dict_comprehension ks ((k0, v0) :: tail) = dict_comprehension ks tail := by
  intro ks
  induction ks with
  | nil => intro _; rfl
  | cons k rest ih =>
    intro h
    simp only [dict_comprehension, lookupR_cons_ne (h k (by simp)),
      ih (fun k' hk' => h k' (by simp [hk']))]

theorem dict_comprehension_filter_keys :
    ∀ (r : Record), (Record.keys r).Nodup → ∀ P : String → Bool,
      dict_comprehension ((Record.keys r).filter P) r =
        .ok (r.filter (fun kv => P kv.1)) := by
  intro r
  induction r with
  | nil => intro _ P; rfl
  | cons kv tail ih =>
    intro hnd P
    obtain ⟨k0, v0⟩ := kv
    simp only [Record.keys, List.map_cons, List.nodup_cons] at hnd
    have hskip : ∀ ks : List String, (∀ k' ∈ ks, k' ∈ Record.keys tail) →
        dict_comprehension ks ((k0, v0) :: tail) = dict_comprehension ks tail := by
      intro ks hks
      exact dict_comprehension_skip ks (fun k' hk' hk0 => hnd.1 (hk0 ▸ hks k' hk'))
    by_cases hP : P k0
    · rw [show Record.keys ((k0, v0) :: tail) = k0 :: Record.keys tail from rfl,
        List.filter_cons_of_pos hP]
      simp only [dict_comprehension, lookupR_cons_self]
      rw [hskip _ (fun k' hk' => List.mem_of_mem_filter hk'), ih hnd.2 P]
      simp only [Except.map]
      rw [List.filter_cons]
      simp [hP]
    · rw [show Record.keys ((k0, v0) :: tail) = k0 :: Record.keys tail from rfl,
        List.filter_cons_of_neg (by simpa using hP)]
      rw [hskip _ (fun k' hk' => List.mem_of_mem_filter hk'), ih hnd.2 P]
      rw [List.filter_cons]
      simp [hP]

theorem remaining_keys_of_sub {r : Record} {levels : List String}
    (hsub : ∀ l ∈ levels, l ∈ Record.keys r) :
    remaining_keys r levels = (Record.keys r).filter (fun k => !levels.contains k) := by
  simp only [remaining_keys]
  rw [show levels.eraseDups.filter (fun l => !(Record.keys r).contains l) = [] from ?_,
    List.append_nil]
  rw [List.filter_eq_nil_iff]
  intro l hl
  simp [List.contains, List.elem_eq_mem, hsub l (mem_of_mem_eraseDups hl)]

/-- The payload computed by `create_tree` is exactly the record restricted
to its non-nesting attributes, whenever the record carries every declared
nesting attribute. -/
theorem payload_eq_spec_restrict {r : Record} {levels : List String}
    (hnd : (Record.keys r).Nodup) (hsub : ∀ l ∈ levels, l ∈ Record.keys r) :
    dict_comprehension (remaining_keys r levels) r = .ok (spec_restrict r levels) := by
  rw [remaining_keys_of_sub hsub]
  exact dict_comprehension_filter_keys r hnd (fun k => !levels.contains k)

/-- The chain of a single branch after the leaf payload `V` was attached. -/
def chainV (v : Val) (vs : List Val) (V : List Record) : Tree :=
  match vs with
  | [] => Tree.node v V []
  | w :: ws => Tree.node v [] [chainV w ws V]

theorem chainV_name (v : Val) (vs : List Val) (V : List Record) :
    (chainV v vs V).name = v := by
  cases vs <;> rfl

theorem setValuesAt_chainT :
    ∀ (vs : List Val) (v : Val) (V : List Record),
      setValuesAt (chainT v vs) vs V = chainV v vs V := by
  intro vs
  induction vs with
  | nil => intro v V; rfl
  | cons w ws ih =>
    intro v V
    simp only [chainT, setValuesAt, Tree.children_node, Tree.name_node, Tree.values_node]
    rw [List.find?_cons_of_pos _ (by simp [chainT_name])]
    simp [replaceFirst, chainT_name, chainV, ih w V]

theorem setValuesAt_one_child (n : Val) (vl : List Record) (v : Val) (vs : List Val)
    (V : List Record) :
    setValuesAt (Tree.node n vl [chainT v vs]) (v :: vs) V =
      Tree.node n vl [chainV v vs V] := by
  simp only [setValuesAt, Tree.children_node, Tree.name_node, Tree.values_node]
  rw [List.find?_cons_of_pos _ (by simp [chainT_name])]
  simp [replaceFirst, chainT_name, setValuesAt_chainT]

theorem getAtPath_chainV :
    ∀ (vs : List Val) (v : Val) (V : List Record),
      (getAtPath (chainV v vs V) vs).map Tree.values = some V := by
  intro vs
  induction vs with
  | nil => intro v V; rfl
  | cons w ws ih =>
    intro v V
    simp only [chainV, getAtPath, Tree.children_node]
    rw [List.find?_cons_of_pos _ (by simp [chainV_name])]
    exact ih w V

theorem getAtPath_one_child (n : Val) (vl : List Record) (v : Val) (vs : List Val)
    (V : List Record) :
    (getAtPath (Tree.node n vl [chainV v vs V]) (v :: vs)).map Tree.values = some V := by
  simp only [getAtPath, Tree.children_node]
  rw [List.find?_cons_of_pos _ (by simp [chainV_name])]
  exact getAtPath_chainV vs v V

theorem mem_keys_of_lookupR {r : Record} {l : String} {w : Val}
    (h : lookupR r l = some w) : l ∈ Record.keys r := by
  simp only [lookupR, Option.map_eq_some'] at h
  rcases h with ⟨kv, hfind, _⟩
  have hmem := List.mem_of_find?_eq_some hfind
  have hpred := List.find?_some hfind
  simp only [decide_eq_true_eq] at hpred
  subst hpred
  exact List.mem_map_of_mem Prod.fst hmem

theorem valsOf_sub {r : Record} :
    ∀ {ls : List String} {p : List Val}, valsOf r ls = some p →
      ∀ l ∈ ls, l ∈ Record.keys r := by
  intro ls
  induction ls with
  | nil => intro p _ l hl; cases hl
  | cons l0 rest ih =>
    intro p h l hl
    obtain ⟨v2, vs2, _, hq2, hv2⟩ := valsOf_cons h
    rw [List.mem_cons] at hl
    rcases hl with hl | hl
    · subst hl; exact mem_keys_of_lookupR hq2
    · exact ih hv2 l hl

/-- A standalone form of validation success, used to settle claims about
`create_tree` on a validated input. -/
theorem validate_ok (levels : List String) (xs : List PyVal) (hne : xs ≠ [])
    (hd : ∀ x ∈ xs, x.isDict = true)
    (hkeys : ∀ r : Record, PyVal.dict r ∈ xs → ∀ l ∈ levels, l ∈ Record.keys r) :
    validate_input_data levels (.list xs) = .ok true := by
  have hall : xs.all PyVal.isDict = true := List.all_eq_true.mpr hd
  have hne' : xs.isEmpty = false := by simpa [List.isEmpty_eq_false] using hne
  have hfil : xs.filter (missesAttr levels) = [] := by
    rw [List.filter_eq_nil_iff]
    intro x hx
    cases x with
    | dict r =>
      simp only [missesAttr, Bool.not_eq_true, List.any_eq_false]
      intro l hl
      simp [List.contains, List.elem_eq_mem, hkeys r hx l hl]
    | list ys => exact absurd (hd _ hx) (by simp [PyVal.isDict])
    | scalar v => exact absurd (hd _ hx) (by simp [PyVal.isDict])
  simp [validate_input_data, PyVal.isList, PyVal.truthy, hall, hne', hfil]

/-- `create_tree` on a single record, fully described: validation passes,
the branch chain is created, and the leaf carries the one-element
restricted payload. -/
theorem create_tree_single (levels : List String) (r : Record) (v : Val) (vs : List Val)
    (hv : valsOf r levels = some (v :: vs)) (hnd : (Record.keys r).Nodup) :
    create_tree levels root_node (.list [.dict r]) =
      (Tree.node (Val.s "root") [] [chainV v vs [spec_restrict r levels]], .ok ()) := by
  have hsub : ∀ l ∈ levels, l ∈ Record.keys r := valsOf_sub hv
  have hvalid : validate_input_data levels (.list [.dict r]) = .ok true := by
    refine validate_ok levels [.dict r] (by simp) ?_ ?_
    · intro x hx
      rw [List.mem_singleton] at hx
      subst hx; rfl
    · intro r' hr'
      rw [List.mem_singleton] at hr'
      cases hr'
      exact hsub
  simp only [create_tree, hvalid, if_true]
  simp only [create_tree_loop]
  rw [show root_node = Tree.node (Val.s "root") [] [] from rfl,
    go_fresh_chain levels true (Val.s "root") [] r v vs hv]
  dsimp only
  rw [payload_eq_spec_restrict hnd hsub]
  dsimp only
  rw [setValuesAt_one_child]

def claim6_record : Record :=
  [("currency", .s "EUR"), ("country", .s "FR"), ("city", .s "Paris"), ("amount", .i 10)]

/-- C6: a record carrying all declared nesting attributes gets, at its
leaf, the one-element payload holding exactly the restriction of the
record to the keys outside the nesting-level set; in particular the
example record's leaf at root to EUR to FR to Paris carries
`[(amount, 10)]`. -/
theorem claim_C6 :
    (∀ (levels : List String) (r : Record) (v : Val) (vs : List Val),
      valsOf r levels = some (v :: vs) → (Record.keys r).Nodup →
      ∃ t', create_tree levels root_node (.list [.dict r]) = (t', .ok ()) ∧
        (getAtPath t' (v :: vs)).map Tree.values = some [spec_restrict r levels]) ∧
    ((getAtPath (create_tree claim1_levels root_node (.list [.dict claim6_record])).1
        [Val.s "EUR", Val.s "FR", Val.s "Paris"]).map Tree.values =
      some [[("amount", Val.i 10)]]) := by
  constructor
  · intro levels r v vs hv hnd
    refine ⟨_, create_tree_single levels r v vs hv hnd, ?_⟩
    exact getAtPath_one_child (Val.s "root") [] v vs [spec_restrict r levels]
  · rfl

/-- Witness for C6: the general part applied to the example record. -/
theorem claim_C6_witness :
    ∃ t', create_tree claim1_levels root_node (.list [.dict claim6_record]) =
        (t', .ok ()) ∧
      (getAtPath t' [Val.s "EUR", Val.s "FR", Val.s "Paris"]).map Tree.values =
        some [spec_restrict claim6_record claim1_levels] :=
  claim_C6.1 claim1_levels claim6_record (Val.s "EUR") [Val.s "FR", Val.s "Paris"]
    rfl (by decide)

def claim10_input : PyVal := .list [.dict [("a", Val.s "x")]]

/-- C10: a record whose key set equals exactly the nesting-level set gets
the leaf payload `[⟨empty record⟩]` (a one-element list holding the empty
map), and the export renders such a leaf as a one-element array holding
an empty object. -/
theorem claim_C10 :
    (∀ (levels : List String) (r : Record) (v : Val) (vs : List Val),
      valsOf r levels = some (v :: vs) → (Record.keys r).Nodup →
      (∀ k ∈ Record.keys r, k ∈ levels) →
      ∃ t', create_tree levels root_node (.list [.dict r]) = (t', .ok ()) ∧
        (getAtPath t' (v :: vs)).map Tree.values = some [([] : Record)]) ∧
    ((create_tree ["a"] root_node claim10_input).2 = .ok ()) ∧
    (export_tree (create_tree ["a"] root_node claim10_input).1 =
      json_dumps (.dict [(.s "x", .arr [.dict []])])) ∧
    (export_tree (create_tree ["a"] root_node claim10_input).1 =
      .ok "\x7b\n  \"x\": [\n    \x7b\x7d\n  ]\n\x7d") := by
  refine ⟨?_, rfl, rfl, rfl⟩
  intro levels r v vs hv hnd hkeys
  have hrestrict : spec_restrict r levels = [] := by
    rw [spec_restrict, List.filter_eq_nil_iff]
    intro kv hkv
    simp [List.contains, List.elem_eq_mem,
      hkeys kv.1 (List.mem_map_of_mem Prod.fst hkv)]
  refine ⟨_, create_tree_single levels r v vs hv hnd, ?_⟩
  rw [← hrestrict]
  exact getAtPath_one_child (Val.s "root") [] v vs [spec_restrict r levels]

/-- Witness for C10: the general part at the one-attribute record. -/
theorem claim_C10_witness :
    ∃ t', create_tree ["a"] root_node (.list [.dict [("a", Val.s "x")]]) =
        (t', .ok ()) ∧
      (getAtPath t' [Val.s "x"]).map Tree.values = some [([] : Record)] :=
  claim_C10.1 ["a"] [("a", Val.s "x")] (Val.s "x") [] rfl (by decide) (by decide)

/-! ## C7: export determinism and key ordering -/

def claim7_cex_input : PyVal :=
  .list [.dict [("n", Val.i 2)], .dict [("n", Val.i 10)]]

def claim7_cex_prepared : DVal :=
  .dict [(.i 2, .arr [.dict []]), (.i 10, .arr [.dict []])]

/-- C7 is refuted on its key-ordering part: with the single nesting level
`n` and the records `n = 2` and `n = 10`, `create_tree` succeeds and
`export_tree` returns the serialization whose top-level keys appear as
`"2"` then `"10"` — the numeric order of the integer labels, which is not
ascending lexicographic order (`"10" < "2"` lexicographically).  The
encoder sorts the underlying keys, and integer keys sort numerically
before being coerced to strings. -/
theorem claim_C7_counterexample :
    (create_tree ["n"] root_node claim7_cex_input).2 = .ok () ∧
    export_prepared (create_tree ["n"] root_node claim7_cex_input).1 =
      .ok claim7_cex_prepared ∧
    export_tree (create_tree ["n"] root_node claim7_cex_input).1 =
      .ok (renderD 0 claim7_cex_prepared) ∧
    keysAscendingB claim7_cex_prepared = false :=
  ⟨rfl, rfl, rfl, rfl⟩

theorem charsLtB_asymm :
    ∀ as bs : List Char, charsLtB as bs = true → charsLtB bs as = false := by
  intro as
  induction as with
  | nil =>
    intro bs h
    cases bs with
    | nil => cases h
    | cons b bs => rfl
  | cons a as ih =>
    intro bs h
    cases bs with
    | nil => cases h
    | cons b bs =>
      simp only [charsLtB] at h ⊢
      by_cases hab : a.toNat < b.toNat
      · rw [if_neg (by omega), if_pos hab]
      · rw [if_neg hab] at h
        by_cases hba : b.toNat < a.toNat
        · rw [if_pos hba] at h; cases h
        · rw [if_neg hba] at h
          rw [if_neg hba, if_neg hab]
          exact ih bs h

theorem strLeB_total (a b : String) : (strLeB a b || strLeB b a) = true := by
  simp only [strLeB]
  cases hab : strLtB a b with
  | true =>
    have := charsLtB_asymm a.data b.data hab
    simp [strLtB, this]
  | false => simp [hab]

theorem entryLeS_total (a b : Val × DVal) : (entryLeS a b || entryLeS b a) = true :=
  strLeB_total a.1.keyS b.1.keyS

/-- Adjacent-pairs ordering for an arbitrary Boolean comparison. -/
def chainB (le : α → α → Bool) : List α → Bool
  | [] => true
  | [_] => true
  | a :: b :: rest => le a b && chainB le (b :: rest)

theorem mem_insertLe (le : α → α → Bool) (x : α) :
    ∀ (xs : List α) (y : α), y ∈ insertLe le x xs ↔ y = x ∨ y ∈ xs := by
  intro xs
  induction xs with
  | nil => intro y; simp [insertLe]
  | cons z zs ih =>
    intro y
    simp only [insertLe]
    by_cases h : le x z
    · rw [if_pos h]; simp
    · rw [if_neg h]
      simp only [List.mem_cons, ih]
      tauto

theorem mem_sortLe (le : α → α → Bool) :
    ∀ (xs : List α) (y : α), y ∈ sortLe le xs ↔ y ∈ xs := by
  intro xs
  induction xs with
  | nil => intro y; simp [sortLe]
  | cons z zs ih =>
    intro y
    simp only [sortLe, mem_insertLe, ih, List.mem_cons]

theorem chainB_insertLe (le : α → α → Bool)
    (htot : ∀ a b, (le a b || le b a) = true) :
    ∀ (xs : List α) (x : α), chainB le xs = true →
      chainB le (insertLe le x xs) = true := by
  intro xs
  induction xs with
  | nil => intro x _; rfl
  | cons y ys ih =>
    intro x h
    have hyx : le x y = false → le y x = true := by
      intro hf
      have := htot x y
      rw [hf] at this
      simpa using this
    simp only [insertLe]
    by_cases hxy : le x y
    · rw [if_pos hxy]
      simp only [chainB, Bool.and_eq_true]
      exact ⟨hxy, h⟩
    · rw [if_neg hxy]
      cases ys with
      | nil =>
        simp only [insertLe, chainB, Bool.and_eq_true]
        exact ⟨hyx (by simpa using hxy), trivial⟩
      | cons z zs =>
        simp only [chainB, Bool.and_eq_true] at h
        have hins := ih x h.2
        simp only [insertLe] at hins ⊢
        by_cases hxz : le x z
        · rw [if_pos hxz] at hins ⊢
          simp only [chainB, Bool.and_eq_true] at hins ⊢
          exact ⟨hyx (by simpa using hxy), hins⟩
        · rw [if_neg hxz] at hins ⊢
          simp only [chainB, Bool.and_eq_true] at hins ⊢
          exact ⟨h.1, hins⟩

theorem chainB_sortLe (le : α → α → Bool)
    (htot : ∀ a b, (le a b || le b a) = true) :
    ∀ xs : List α, chainB le (sortLe le xs) = true := by
  intro xs
  induction xs with
  | nil => rfl
  | cons x xs ih => exact chainB_insertLe le htot (sortLe le xs) x ih

/-- On entries whose keys are all strings, the item order produced by the
string comparison yields lexicographically ascending rendered keys. -/
theorem strChain_of_chain_entryLeS :
    ∀ es : List (Val × DVal), (∀ kv ∈ es, kv.1.isStr = true) →
      chainB entryLeS es = true →
      strChainLeB (es.map (fun kv => keyRenderStr kv.1)) = true := by
  intro es
  induction es with
  | nil => intro _ _; rfl
  | cons a es ih =>
    intro hstr h
    cases es with
    | nil => rfl
    | cons b es =>
      simp only [chainB, Bool.and_eq_true] at h
      simp only [List.map_cons, strChainLeB, Bool.and_eq_true]
      refine ⟨?_, ?_⟩
      · have ha := hstr a (by simp)
        have hb := hstr b (by simp)
        have hle : strLeB a.1.keyS b.1.keyS = true := h.1
        cases hva : a.1 with
        | s sa =>
          cases hvb : b.1 with
          | s sb =>
            rw [hva, hvb] at hle
            simpa [keyRenderStr, Val.keyS, hva, hvb] using hle
          | i ib => rw [hvb] at hb; cases hb
        | i ia => rw [hva] at ha; cases ha
      · exact ih (fun kv hkv => hstr kv (by simp [hkv])) h.2

theorem dvalStrKeysPairs_iff :
    ∀ es : List (Val × DVal), dvalStrKeysPairs es = true ↔
      ∀ kv ∈ es, dvalStrKeysB kv.2 = true := by
  intro es
  induction es with
  | nil => simp [dvalStrKeysPairs]
  | cons kv rest ih =>
    obtain ⟨k, v⟩ := kv
    simp only [dvalStrKeysPairs, Bool.and_eq_true, ih, List.mem_cons]
    constructor
    · rintro ⟨h1, h2⟩ x (rfl | hx)
      · exact h1
      · exact h2 x hx
    · intro h
      exact ⟨h (k, v) (Or.inl rfl), fun x hx => h x (Or.inr hx)⟩

theorem dvalStrKeysList_iff :
    ∀ xs : List DVal, dvalStrKeysList xs = true ↔ ∀ x ∈ xs, dvalStrKeysB x = true := by
  intro xs
  induction xs with
  | nil => simp [dvalStrKeysList]
  | cons x rest ih =>
    simp only [dvalStrKeysList, Bool.and_eq_true, ih, List.mem_cons]
    constructor
    · rintro ⟨h1, h2⟩ y (rfl | hy)
      · exact h1
      · exact h2 y hy
    · intro h
      exact ⟨h x (Or.inl rfl), fun y hy => h y (Or.inr hy)⟩

theorem keysAscendingPairs_iff :
    ∀ es : List (Val × DVal), keysAscendingPairs es = true ↔
      ∀ kv ∈ es, keysAscendingB kv.2 = true := by
  intro es
  induction es with
  | nil => simp [keysAscendingPairs]
  | cons kv rest ih =>
    obtain ⟨k, v⟩ := kv
    simp only [keysAscendingPairs, Bool.and_eq_true, ih, List.mem_cons]
    constructor
    · rintro ⟨h1, h2⟩ x (rfl | hx)
      · exact h1
      · exact h2 x hx
    · intro h
      exact ⟨h (k, v) (Or.inl rfl), fun x hx => h x (Or.inr hx)⟩

theorem keysAscendingList_iff :
    ∀ xs : List DVal, keysAscendingList xs = true ↔
      ∀ x ∈ xs, keysAscendingB x = true := by
  intro xs
  induction xs with
  | nil => simp [keysAscendingList]
  | cons x rest ih =>
    simp only [keysAscendingList, Bool.and_eq_true, ih, List.mem_cons]
    constructor
    · rintro ⟨h1, h2⟩ y (rfl | hy)
      · exact h1
      · exact h2 y hy
    · intro h
      exact ⟨h x (Or.inl rfl), fun y hy => h y (Or.inr hy)⟩

theorem labelsStrAll_iff :
    ∀ cs : List Tree, labelsStrAll cs = true ↔ ∀ c ∈ cs, labelsStrB c = true := by
  intro cs
  induction cs with
  | nil => simp [labelsStrAll]
  | cons c rest ih =>
    simp only [labelsStrAll, Bool.and_eq_true, ih, List.mem_cons]
    constructor
    · rintro ⟨h1, h2⟩ x (rfl | hx)
      · exact h1
      · exact h2 x hx
    · intro h
      exact ⟨h c (Or.inl rfl), fun x hx => h x (Or.inr hx)⟩

theorem labelsStrB_name {t : Tree} (h : labelsStrB t = true) : t.name.isStr = true := by
  cases t with
  | node n vl cs =>
    simp only [labelsStrB, Bool.and_eq_true] at h
    exact h.1

theorem dictSet_strKeys :
    ∀ {es : List (Val × DVal)} {k : Val} {v : DVal},
      dvalStrKeysB (.dict es) = true → k.isStr = true → dvalStrKeysB v = true →
      dvalStrKeysB (.dict (dictSet es k v)) = true := by
  intro es
  induction es with
  | nil =>
    intro k v _ hk hv
    simp [dictSet, dvalStrKeysB, dvalStrKeysPairs, hk, hv]
  | cons kv rest ih =>
    intro k v h hk hv
    obtain ⟨k0, v0⟩ := kv
    simp only [dvalStrKeysB, List.map_cons, List.all_cons, Bool.and_eq_true,
      dvalStrKeysPairs] at h
    simp only [dictSet]
    by_cases hkk : k0 = k
    · rw [if_pos hkk]
      simp [dvalStrKeysB, dvalStrKeysPairs, hk, hv, h.1.2, h.2.2]
    · rw [if_neg hkk]
      have := ih (k := k) (v := v) (by simp [dvalStrKeysB, h.1.2, h.2.2]) hk hv
      simp only [dvalStrKeysB, List.map_cons, List.all_cons, Bool.and_eq_true,
        dvalStrKeysPairs] at this ⊢
      exact ⟨⟨h.1.1, this.1⟩, h.2.1, this.2⟩

theorem dictUpdate_strKeys :
    ∀ {us es : List (Val × DVal)},
      dvalStrKeysB (.dict es) = true →
      (∀ kv ∈ us, kv.1.isStr = true ∧ dvalStrKeysB kv.2 = true) →
      dvalStrKeysB (.dict (dictUpdate es us)) = true := by
  intro us
  induction us with
  | nil => intro es h _; exact h
  | cons kv rest ih =>
    intro es h hus
    obtain ⟨k, v⟩ := kv
    simp only [dictUpdate]
    exact ih (dictSet_strKeys h (hus (k, v) (by simp)).1 (hus (k, v) (by simp)).2)
      (fun x hx => hus x (by simp [hx]))

theorem dictGet_strKeys {es : List (Val × DVal)} {k : Val} {v : DVal}
    (h : dvalStrKeysB (.dict es) = true) (hg : dictGet es k = some v) :
    dvalStrKeysB v = true := by
  simp only [dictGet, Option.map_eq_some'] at hg
  rcases hg with ⟨kv, hfind, hsnd⟩
  have hmem := List.mem_of_find?_eq_some hfind
  simp only [dvalStrKeysB, Bool.and_eq_true] at h
  have := (dvalStrKeysPairs_iff es).mp h.2 kv hmem
  rw [hsnd] at this
  exact this

theorem recordToDVal_strKeys (r : Record) : dvalStrKeysB (recordToDVal r) = true := by
  simp only [recordToDVal, dvalStrKeysB, Bool.and_eq_true]
  constructor
  · rw [List.all_eq_true]
    intro k hk
    simp only [List.map_map, List.mem_map] at hk
    rcases hk with ⟨kv, _, hkv⟩
    rw [← hkv]
    rfl
  · rw [dvalStrKeysPairs_iff]
    intro kv hkv
    rw [List.mem_map] at hkv
    rcases hkv with ⟨kv0, _, hkv0⟩
    rw [← hkv0]
    rfl

theorem arr_records_strKeys (vs : List Record) :
    dvalStrKeysB (.arr (vs.map recordToDVal)) = true := by
  simp only [dvalStrKeysB]
  rw [dvalStrKeysList_iff]
  intro x hx
  rw [List.mem_map] at hx
  rcases hx with ⟨r, _, hr⟩
  rw [← hr]
  exact recordToDVal_strKeys r

theorem tree_sizeOf_pos (t : Tree) : 0 < sizeOf t := by
  cases t with
  | node n vl cs => simp only [Tree.node.sizeOf_spec]; omega

theorem dval_sizeOf_pos (d : DVal) : 0 < sizeOf d := by
  cases d with
  | dict es => simp only [DVal.dict.sizeOf_spec]; omega
  | arr xs => simp only [DVal.arr.sizeOf_spec]; omega
  | scalar v => simp only [DVal.scalar.sizeOf_spec]; omega

theorem list_sizeOf_pos {α} [SizeOf α] (l : List α) : 0 < sizeOf l := by
  cases l with
  | nil => simp
  | cons a l => simp only [List.cons.sizeOf_spec]; omega

/-- Every dictionary key in the structure built by `_export_layer` is a
string whenever every node label in the tree is a string (leaf-payload
records have string keys by construction). -/
theorem export_strKeys :
    ∀ N : Nat,
      (∀ (t : Tree) (cur : DVal) (res : Option (List Record)) (d : DVal),
        sizeOf t ≤ N → labelsStrB t = true → dvalStrKeysB cur = true →
        export_layer t cur = .ok (res, d) → dvalStrKeysB d = true) ∧
      (∀ (cs : List Tree) (entries d : List (Val × DVal)),
        sizeOf cs ≤ N → labelsStrAll cs = true → dvalStrKeysB (.dict entries) = true →
        export_children cs entries = .ok d → dvalStrKeysB (.dict d) = true) := by
  intro N
  induction N with
  | zero =>
    constructor
    · intro t _ _ _ hsz _ _ _
      exact absurd hsz (by have := tree_sizeOf_pos t; omega)
    · intro cs _ _ hsz _ _ _
      exact absurd hsz (by have := list_sizeOf_pos cs; omega)
  | succ N IHN =>
    constructor
    · intro t cur res d hsz hlab hcur h
      cases t with
      | node n vl cs =>
        cases cs with
        | nil =>
          simp only [export_layer] at h
          cases h
          exact hcur
        | cons c cs' =>
          simp only [export_layer] at h
          cases cur with
          | dict entries =>
            dsimp only at h
            cases hec : export_children (c :: cs')
                (dictUpdate entries ((c :: cs').map (fun c => (c.name, DVal.dict [])))) with
            | error e => rw [hec] at h; simp [Except.map] at h
            | ok es =>
              rw [hec] at h
              simp only [Except.map, Except.ok.injEq, Prod.mk.injEq] at h
              rw [← h.2]
              simp only [labelsStrB, Bool.and_eq_true] at hlab
              have hup : dvalStrKeysB (.dict (dictUpdate entries
                  ((c :: cs').map (fun c => (c.name, DVal.dict []))))) = true := by
                refine dictUpdate_strKeys hcur ?_
                intro kv hkv
                rw [List.mem_map] at hkv
                rcases hkv with ⟨c0, hc0, hkv⟩
                rw [← hkv]
                exact ⟨labelsStrB_name ((labelsStrAll_iff _).mp hlab.2 c0 hc0), rfl⟩
              refine (IHN.2) (c :: cs') _ es ?_ hlab.2 hup hec
              have : sizeOf (Tree.node n vl (c :: cs')) = 1 + sizeOf n + sizeOf vl +
                  sizeOf (c :: cs') := Tree.node.sizeOf_spec n vl (c :: cs')
              omega
          | arr xs => cases h
          | scalar v => cases h
    · intro cs entries d hsz hlab hent h
      cases cs with
      | nil =>
        simp only [export_children] at h
        cases h
        exact hent
      | cons c rest =>
        simp only [export_children] at h
        cases hg : dictGet entries c.name with
        | none => rw [hg] at h; cases h
        | some sub =>
          rw [hg] at h
          dsimp only at h
          cases hel : export_layer c sub with
          | error e => rw [hel] at h; cases h
          | ok pr =>
            rw [hel] at h
            obtain ⟨values, sub'⟩ := pr
            dsimp only at h
            simp only [labelsStrAll, Bool.and_eq_true] at hlab
            have hsubstr : dvalStrKeysB sub = true := dictGet_strKeys hent hg
            have hsub' : dvalStrKeysB sub' = true := by
              refine (IHN.1) c sub values sub' ?_ hlab.1 hsubstr hel
              have : sizeOf (c :: rest) = 1 + sizeOf c + sizeOf rest :=
                List.cons.sizeOf_spec c rest
              omega
            have hkstr : (c.name).isStr = true := labelsStrB_name hlab.1
            have he1 : dvalStrKeysB (.dict (dictSet entries c.name sub')) = true :=
              dictSet_strKeys hent hkstr hsub'
            have hszr : sizeOf rest ≤ N := by
              have : sizeOf (c :: rest) = 1 + sizeOf c + sizeOf rest :=
                List.cons.sizeOf_spec c rest
              omega
            cases values with
            | none =>
              dsimp only at h
              exact (IHN.2) rest _ d hszr hlab.2 he1 h
            | some vs =>
              dsimp only at h
              by_cases hvs : vs.isEmpty
              · rw [if_pos hvs] at h
                exact (IHN.2) rest _ d hszr hlab.2 he1 h
              · rw [if_neg hvs] at h
                exact (IHN.2) rest _ d hszr hlab.2
                  (dictSet_strKeys he1 hkstr (arr_records_strKeys vs)) h

/-- On a structure whose dictionary keys are all strings, the key-sorting
phase produces ascending rendered keys in every dictionary. -/
theorem sort_ascending :
    ∀ N : Nat,
      (∀ (d d' : DVal), sizeOf d ≤ N → dvalStrKeysB d = true →
        sortKeysD d = .ok d' → keysAscendingB d' = true) ∧
      (∀ (xs xs' : List DVal), sizeOf xs ≤ N → dvalStrKeysList xs = true →
        sortKeysList xs = .ok xs' → keysAscendingList xs' = true) ∧
      (∀ (es es' : List (Val × DVal)), sizeOf es ≤ N → dvalStrKeysPairs es = true →
        sortKeysPairs es = .ok es' →
        (∀ kv ∈ es', keysAscendingB kv.2 = true) ∧
          es'.map Prod.fst = es.map Prod.fst) := by
  intro N
  induction N with
  | zero =>
    refine ⟨?_, ?_, ?_⟩
    · intro d _ hsz _ _
      exact absurd hsz (by have := dval_sizeOf_pos d; omega)
    · intro xs _ hsz _ _
      exact absurd hsz (by have := list_sizeOf_pos xs; omega)
    · intro es _ hsz _ _
      exact absurd hsz (by have := list_sizeOf_pos es; omega)
  | succ N IHN =>
    refine ⟨?_, ?_, ?_⟩
    · intro d d' hsz hstr h
      cases d with
      | scalar v =>
        simp only [sortKeysD] at h
        cases h
        rfl
      | arr xs =>
        simp only [sortKeysD] at h
        cases hxs : sortKeysList xs with
        | error e => rw [hxs] at h; simp [Except.map] at h
        | ok xs' =>
          rw [hxs] at h
          simp only [Except.map, Except.ok.injEq] at h
          rw [← h]
          have hsz' : sizeOf xs ≤ N := by
            have : sizeOf (DVal.arr xs) = 1 + sizeOf xs := DVal.arr.sizeOf_spec xs
            omega
          simpa [keysAscendingB] using IHN.2.1 xs xs' hsz' (by simpa [dvalStrKeysB] using hstr) hxs
      | dict entries =>
        simp only [sortKeysD] at h
        cases hes : sortKeysPairs entries with
        | error e => rw [hes] at h; cases h
        | ok es =>
          rw [hes] at h
          dsimp only at h
          simp only [dvalStrKeysB, Bool.and_eq_true] at hstr
          have hsz' : sizeOf entries ≤ N := by
            have : sizeOf (DVal.dict entries) = 1 + sizeOf entries :=
              DVal.dict.sizeOf_spec entries
            omega
          have hih := IHN.2.2 entries es hsz' hstr.2 hes
          have hallstr : (es.map Prod.fst).all Val.isStr = true := by
            rw [hih.2]; exact hstr.1
          have hallstr' : (es.all fun kv => kv.1.isStr) = true := by
            rw [List.all_eq_true]
            intro kv hkv
            exact List.all_eq_true.mp hallstr kv.1 (List.mem_map_of_mem Prod.fst hkv)
          simp only [sortEntries] at h
          rw [if_pos hallstr'] at h
          simp only [Except.map, Except.ok.injEq] at h
          rw [← h]
          simp only [keysAscendingB, Bool.and_eq_true]
          constructor
          · refine strChain_of_chain_entryLeS (sortLe entryLeS es) ?_ ?_
            · intro kv hkv
              rw [mem_sortLe] at hkv
              have := List.all_eq_true.mp hallstr kv.1 (List.mem_map_of_mem Prod.fst hkv)
              exact this
            · exact chainB_sortLe entryLeS entryLeS_total es
          · rw [keysAscendingPairs_iff]
            intro kv hkv
            rw [mem_sortLe] at hkv
            exact hih.1 kv hkv
    · intro xs xs' hsz hstr h
      cases xs with
      | nil =>
        simp only [sortKeysList] at h
        cases h
        rfl
      | cons x rest =>
        simp only [sortKeysList] at h
        cases hx : sortKeysD x with
        | error e => rw [hx] at h; cases h
        | ok x' =>
          rw [hx] at h
          cases hrest : sortKeysList rest with
          | error e => rw [hrest] at h; simp [Except.map] at h
          | ok rest' =>
            rw [hrest] at h
            simp only [Except.map, Except.ok.injEq] at h
            rw [← h]
            simp only [dvalStrKeysList, Bool.and_eq_true] at hstr
            have hszx : sizeOf x ≤ N := by
              have : sizeOf (x :: rest) = 1 + sizeOf x + sizeOf rest :=
                List.cons.sizeOf_spec x rest
              omega
            have hszr : sizeOf rest ≤ N := by
              have : sizeOf (x :: rest) = 1 + sizeOf x + sizeOf rest :=
                List.cons.sizeOf_spec x rest
              omega
            simp only [keysAscendingList, Bool.and_eq_true]
            exact ⟨IHN.1 x x' hszx hstr.1 hx, IHN.2.1 rest rest' hszr hstr.2 hrest⟩
    · intro es es' hsz hstr h
      cases es with
      | nil =>
        simp only [sortKeysPairs] at h
        cases h
        refine ⟨?_, rfl⟩
        intro kv hkv
        exact absurd hkv (List.not_mem_nil kv)
      | cons kv rest =>
        obtain ⟨k, v⟩ := kv
        simp only [sortKeysPairs] at h
        cases hv : sortKeysD v with
        | error e => rw [hv] at h; cases h
        | ok v' =>
          rw [hv] at h
          cases hrest : sortKeysPairs rest with
          | error e => rw [hrest] at h; simp [Except.map] at h
          | ok rest' =>
            rw [hrest] at h
            simp only [Except.map, Except.ok.injEq] at h
            rw [← h]
            simp only [dvalStrKeysPairs, Bool.and_eq_true] at hstr
            have hszv : sizeOf v ≤ N := by
              have h1 : sizeOf ((k, v) :: rest) = 1 + sizeOf (k, v) + sizeOf rest :=
                List.cons.sizeOf_spec (k, v) rest
              have h2 : sizeOf (k, v) = 1 + sizeOf k + sizeOf v := rfl
              omega
            have hszr : sizeOf rest ≤ N := by
              have h1 : sizeOf ((k, v) :: rest) = 1 + sizeOf (k, v) + sizeOf rest :=
                List.cons.sizeOf_spec (k, v) rest
              omega
            have hihr := IHN.2.2 rest rest' hszr hstr.2 hrest
            constructor
            · intro kv0 hkv0
              rw [List.mem_cons] at hkv0
              rcases hkv0 with rfl | hkv0
              · exact IHN.1 v v' hszv hstr.1 hv
              · exact hihr.1 kv0 hkv0
            · simp only [List.map_cons, hihr.2]

/-- C7 amended.  First conjunct (determinism): exporting the same tree
twice yields byte-identical strings — the export walk reads the tree and
builds fresh dictionaries, never mutating converter state.  Second
conjunct (key order): whenever every node label is a string — integer
labels sort numerically instead, see the counterexample — the prepared
structure underlying the returned serialization has, in every mapping at
every nesting level, keys in ascending lexicographic order, regardless of
child insertion order during construction. -/
theorem claim_C7 :
    (∀ (t : Tree) (s1 s2 : String),
      export_tree t = .ok s1 → export_tree t = .ok s2 → s1 = s2) ∧
    (∀ (t : Tree) (d : DVal), labelsStrB t = true → export_prepared t = .ok d →
      keysAscendingB d = true ∧ export_tree t = .ok (renderD 0 d)) := by
  constructor
  · intro t s1 s2 h1 h2
    rw [h1] at h2
    exact Except.ok.inj h2
  · intro t d hlab hprep
    constructor
    · have hprep' := hprep
      simp only [export_prepared] at hprep'
      by_cases hch : t.children.isEmpty
      · rw [if_pos hch] at hprep'; cases hprep'
      · rw [if_neg hch] at hprep'
        cases hexp : export_layer t (DVal.dict []) with
        | error e => rw [hexp] at hprep'; cases hprep'
        | ok pr =>
          rw [hexp] at hprep'
          obtain ⟨res, d0⟩ := pr
          dsimp only at hprep'
          have hstr : dvalStrKeysB d0 = true :=
            (export_strKeys (sizeOf t)).1 t (DVal.dict []) res d0 le_rfl hlab rfl hexp
          exact (sort_ascending (sizeOf d0)).1 d0 d le_rfl hstr hprep'
    · simp only [export_tree, hprep]
      rfl

def claim7_witness_input : PyVal :=
  .list [.dict [("k", Val.s "b")], .dict [("k", Val.s "a")]]

/-- Witness for C7 (amended): children inserted in the order `b`, `a`
export with ascending keys `a`, `b`. -/
theorem claim_C7_witness :
    keysAscendingB (DVal.dict [(.s "a", .arr [.dict []]), (.s "b", .arr [.dict []])])
        = true ∧
    export_tree (create_tree ["k"] root_node claim7_witness_input).1 =
      .ok (renderD 0
        (DVal.dict [(.s "a", .arr [.dict []]), (.s "b", .arr [.dict []])])) :=
  claim_C7.2 (create_tree ["k"] root_node claim7_witness_input).1
    (DVal.dict [(.s "a", .arr [.dict []]), (.s "b", .arr [.dict []])])
    (by decide) rfl

end NestedJson
